import Mathlib

/-
Verification of the plugin cache and resolution subsystem
(pkg/workspace/plugins.go).

The Go code is shallowly embedded: strings are modelled as List Char,
semantic versions (github.com/blang/semver, whose numeric fields are
uint64) as a structure over Nat with an explicit 2^64 bound where the Go
code parses numbers, the filesystem as an explicit snapshot value, and
fallible operations return Except.  All definitions are executable.
-/

namespace Plugins

/-! ### Character classes used by the Go code

The classes are stated on ASCII codes (Char.toNat), which coincide with
the bytes Go compares, so that class reasoning is plain arithmetic. -/

/-- Decimal digit, as in the Go regexp class [0-9] and blang/semver's
numbers set. -/
def isDigitC (c : Char) : Bool := 48 ≤ c.toNat && c.toNat ≤ 57

/-- Lower-case ASCII letter, the Go regexp class [a-z]. -/
def isLowerC (c : Char) : Bool := 97 ≤ c.toNat && c.toNat ≤ 122

/-- ASCII letter, as in the Go regexp classes. -/
def isAlphaC (c : Char) : Bool :=
  (97 ≤ c.toNat && c.toNat ≤ 122) || (65 ≤ c.toNat && c.toNat ≤ 90)

/-- The Go regexp class [a-zA-Z0-9]. -/
def alnumChar (c : Char) : Bool := isAlphaC c || isDigitC c

/-- The Go regexp class [a-zA-Z0-9-] of the Name capture group. -/
def nameChar (c : Char) : Bool := alnumChar c || c.toNat = 45

/-- The Go regexp class [a-zA-Z0-9-_.] of the prerelease part of the
Version capture group. -/
def preChar (c : Char) : Bool :=
  alnumChar c || c.toNat = 45 || c.toNat = 95 || c.toNat = 46

/-- An unescaped dot in the Go regexp: any character except newline. -/
def anyCharRe (c : Char) : Bool := c.toNat ≠ 10

/-- blang/semver's alphanum set: ASCII letters, the hyphen, and digits. -/
def goAlphanum (c : Char) : Bool := isAlphaC c || c.toNat = 45 || isDigitC c

/-- White space as trimmed by strings.TrimSpace (ASCII portion; the
strings handled here are ASCII). -/
def isSpaceC (c : Char) : Bool :=
  c.toNat = 32 || (9 ≤ c.toNat && c.toNat ≤ 13)

/-! ### Decimal printing and parsing of numbers

strconv.FormatUint / strconv.ParseUint on base-10 uint64 values.  The
printer is written with explicit fuel so that it evaluates by kernel
reduction. -/

/-- The Go uint64 bound: numeric version components must fit in 64 bits. -/
def numBound : Nat := 2 ^ 64

/-- The decimal digit character for a value below 10. -/
def digitCh (d : Nat) : Char :=
  match d with
  | 0 => '0' | 1 => '1' | 2 => '2' | 3 => '3' | 4 => '4'
  | 5 => '5' | 6 => '6' | 7 => '7' | 8 => '8' | _ => '9'

/-- The numeric value of a decimal digit character. -/
def charVal (c : Char) : Nat := c.toNat - 48

/-- Big-endian decimal digits of a positive number; fuel-driven so it
reduces definitionally.  The fuel only needs to cover the digit count. -/
def natDecAux : Nat → Nat → List Char
  | 0, _ => []
  | fuel + 1, n => if n = 0 then [] else natDecAux fuel (n / 10) ++ [digitCh (n % 10)]

/-- Decimal representation of a natural number, as strconv.FormatUint
prints it. -/
def natDec (n : Nat) : List Char := if n = 0 then ['0'] else natDecAux n n

/-- Accumulate the value of a big-endian decimal digit string, as the
parsing loop of strconv.ParseUint does. -/
def parseVal (cs : List Char) : Nat := cs.foldl (fun a c => 10 * a + charVal c) 0

/-- strconv.ParseUint base 10, bit size 64: rejects the empty string and
values that overflow 64 bits (callers have already checked the digits). -/
def parseUint (cs : List Char) : Option Nat :=
  if cs = [] then none
  else if parseVal cs < numBound then some (parseVal cs) else none

/-- blang/semver's hasLeadingZeroes: more than one character and a
leading zero. -/
def hasLeadingZeroes (cs : List Char) : Bool :=
  decide (1 < cs.length) && cs.head? = some '0'

/-- The numeric-component check sequence of blang/semver's Parse:
containsOnly digits, then no leading zeroes, then ParseUint. -/
def parseNumChecked (cs : List Char) : Option Nat :=
  if cs.all isDigitC then
    if hasLeadingZeroes cs then none else parseUint cs
  else none

/-! ### String splitting, as strings.SplitN / strings.Split -/

/-- Break a string at the first occurrence of a separator: the part
before the separator and the part after it. -/
def breakAt (sep : Char) : List Char → Option (List Char × List Char)
  | [] => none
  | c :: cs =>
    if c = sep then some ([], cs)
    else (breakAt sep cs).map (fun p => (c :: p.1, p.2))

/-- strings.SplitN with a positive limit n: at most n chunks, the last
chunk taking the unsplit remainder. -/
def splitN (sep : Char) : Nat → List Char → List (List Char)
  | 0, _ => []
  | 1, cs => [cs]
  | n + 2, cs =>
    match breakAt sep cs with
    | none => [cs]
    | some (a, b) => a :: splitN sep (n + 1) b

/-- Unlimited split, with explicit fuel (the string length bounds the
number of separators). -/
def splitAllF (sep : Char) : Nat → List Char → List (List Char)
  | 0, cs => [cs]
  | fuel + 1, cs =>
    match breakAt sep cs with
    | none => [cs]
    | some (a, b) => a :: splitAllF sep fuel b

/-- strings.Split: split at every occurrence of the separator. -/
def splitAll (sep : Char) (cs : List Char) : List (List Char) :=
  splitAllF sep cs.length cs

/-- Join chunks with a dot, as strings.Join(parts, ".") does. -/
def joinDot : List (List Char) → List Char
  | [] => []
  | x :: xs =>
    match xs with
    | [] => x
    | _ :: _ => x ++ '.' :: joinDot xs

/-- strings.TrimSpace: drop white space from both ends. -/
def trimSpace (cs : List Char) : List Char :=
  ((cs.dropWhile isSpaceC).reverse.dropWhile isSpaceC).reverse

/-! ### Semantic versions (github.com/blang/semver)

A PRVersion is either numeric (uint64 in Go) or an alphanumeric
identifier; a Version is major.minor.patch plus prerelease identifiers
and build metadata. -/

/-- A prerelease identifier: blang/semver's PRVersion. -/
inductive PRId where
  | num (n : Nat)
  | alphanum (s : List Char)
deriving DecidableEq, Repr

/-- blang/semver's Version.  The Go numeric fields are uint64; the
2^64 bound is imposed where numbers are parsed and in wellformedness. -/
structure SemVer where
  major : Nat
  minor : Nat
  patch : Nat
  pre : List PRId
  build : List (List Char)
deriving DecidableEq, Repr

/-- How a PRVersion prints inside Version.String(). -/
def prStr : PRId → List Char
  | .num n => natDec n
  | .alphanum s => s

/-- Version.String(): major.minor.patch, a hyphen plus dot-joined
prerelease identifiers when present, a plus sign plus dot-joined build
identifiers when present. -/
def verString (v : SemVer) : List Char :=
  natDec v.major ++ '.' :: natDec v.minor ++ '.' :: natDec v.patch
    ++ (match v.pre with
        | [] => []
        | ids => '-' :: joinDot (ids.map prStr))
    ++ (match v.build with
        | [] => []
        | bs => '+' :: joinDot bs)

/-- blang/semver's NewPRVersion: an all-digit identifier must have no
leading zeroes and parses as a number; otherwise every character must be
in the alphanum set. -/
def parsePRId (cs : List Char) : Option PRId :=
  if cs = [] then none
  else if cs.all isDigitC then
    if hasLeadingZeroes cs then none
    else (parseUint cs).map .num
  else if cs.all goAlphanum then some (.alphanum cs)
  else none

/-- One build identifier of blang/semver's Parse: nonempty and made of
alphanum characters. -/
def checkBuildId (cs : List Char) : Option (List Char) :=
  if cs = [] then none
  else if cs.all goAlphanum then some cs else none

/-- blang/semver's Parse: split into three dot-separated parts, parse
the numeric components, then the optional prerelease (after the first
hyphen of the third part) and build metadata (after a plus sign). -/
def parse (s : List Char) : Option SemVer :=
  if s = [] then none
  else
    match splitN '.' 3 s with
    | [p0, p1, p2] =>
      match parseNumChecked p0, parseNumChecked p1 with
      | some major, some minor =>
        let buildParts := splitN '+' 2 p2
        match buildParts with
        | [] => none
        | b0 :: brest =>
          let prParts := splitN '-' 2 b0
          match prParts with
          | [] => none
          | pr0 :: prrest =>
            match parseNumChecked pr0 with
            | none => none
            | some patch =>
              let preIds : Option (List PRId) :=
                match prrest with
                | [] => some []
                | pr1 :: _ => (splitAll '.' pr1).mapM parsePRId
              let buildIds : Option (List (List Char)) :=
                match brest with
                | [] => some []
                | b1 :: _ => (splitAll '.' b1).mapM checkBuildId
              match preIds, buildIds with
              | some pre, some build => some ⟨major, minor, patch, pre, build⟩
              | _, _ => none
      | _, _ => none
    | _ => none

/-- blang/semver's ParseTolerant: trim space, strip one leading letter v,
pad a short major / major.minor form with zero components (rejecting
short forms that carry prerelease or build suffixes), then Parse. -/
def parseTolerant (s : List Char) : Option SemVer :=
  let t := trimSpace s
  let t := if t.head? = some 'v' then t.tail else t
  match splitN '.' 3 t with
  | [a] =>
    if a.any (fun c => c = '+' || c = '-') then none
    else parse (joinDot [a, ['0'], ['0']])
  | [a, b] =>
    if b.any (fun c => c = '+' || c = '-') then none
    else parse (joinDot [a, b, ['0']])
  | _ => parse t

/-! ### Version comparison (Version.Compare) -/

/-- Three-way comparison of numbers, as blang/semver compares uint64
components. -/
def cmpNat (a b : Nat) : Int := if a > b then 1 else if a < b then -1 else 0

/-- Go string comparison: byte-wise lexicographic (the identifiers
compared here are ASCII, where code points coincide with bytes). -/
def strCmp : List Char → List Char → Int
  | [], [] => 0
  | [], _ :: _ => -1
  | _ :: _, [] => 1
  | a :: as, b :: bs =>
    if a.toNat > b.toNat then 1
    else if a.toNat < b.toNat then -1
    else strCmp as bs

/-- PRVersion.Compare: numeric sorts before alphanumeric; numerics
compare as numbers, alphanumerics as strings. -/
def prIdCmp : PRId → PRId → Int
  | .num a, .num b => cmpNat a b
  | .alphanum a, .alphanum b => strCmp a b
  | .num _, .alphanum _ => -1
  | .alphanum _, .num _ => 1

/-- The prerelease loop of Version.Compare: identifiers pairwise, then
the shorter list sorts first. -/
def preCmpNE : List PRId → List PRId → Int
  | [], [] => 0
  | [], _ :: _ => -1
  | _ :: _, [] => 1
  | a :: as, b :: bs =>
    let c := prIdCmp a b
    if c ≠ 0 then c else preCmpNE as bs

/-- The prerelease part of Version.Compare: a version without
prerelease sorts after one with. -/
def preCmpFull : List PRId → List PRId → Int
  | [], [] => 0
  | [], _ :: _ => 1
  | _ :: _, [] => -1
  | a :: as, b :: bs => preCmpNE (a :: as) (b :: bs)

/-- Lexicographic combination used to compose Version.Compare from its
component comparisons. -/
def cmpC (x y : Int) : Int := if x ≠ 0 then x else y

/-- Version.Compare: major, then minor, then patch, then the prerelease
lists; build metadata is ignored. -/
def verCmp (a b : SemVer) : Int :=
  cmpC (cmpNat a.major b.major)
    (cmpC (cmpNat a.minor b.minor)
      (cmpC (cmpNat a.patch b.patch) (preCmpFull a.pre b.pre)))

/-- Version.GTE. -/
def verGTE (a b : SemVer) : Bool := decide (0 ≤ verCmp a b)

/-- Version.GT. -/
def verGT (a b : SemVer) : Bool := decide (0 < verCmp a b)

/-- Wellformedness of a prerelease identifier, as guaranteed for every
PRVersion the Go program can obtain from NewPRVersion: numerics fit in
uint64; alphanumerics are nonempty, drawn from the alphanum set, and not
all digits (an all-digit identifier is classified numeric). -/
def prWF : PRId → Bool
  | .num n => decide (n < numBound)
  | .alphanum s => !s.isEmpty && s.all goAlphanum && !s.all isDigitC

/-- Wellformedness of a version value, matching what the spec calls a
valid semantic version (major.minor.patch with an optional prerelease
suffix) as representable by the Go program: uint64 numeric components
and wellformed prerelease identifiers. -/
def verWF (v : SemVer) : Bool :=
  decide (v.major < numBound) && decide (v.minor < numBound) &&
    decide (v.patch < numBound) && v.pre.all prWF

/-! ### The plugin directory-name regexp

pluginRegexp is the anchored Go pattern
  (Kind: one or more of [a-z]) hyphen
  (Name: any of [a-zA-Z0-9-] then one of [a-zA-Z0-9]) hyphen v
  (Version: digits, any char, digits, any char, digits, an optional
   hyphen plus one or more of [a-zA-Z0-9-_.]) end.
The dots between the digit groups are unescaped in the source, so they
match any character except newline.

Go regexp submatching is leftmost-first, like a backtracking engine.
Because the pattern is anchored at both ends and the Kind class [a-z]
cannot match the literal hyphen that must follow it, the Kind group is
always exactly the maximal leading run of lower-case letters.  The Name
group is tried greedily: candidate prefixes of the maximal [a-zA-Z0-9-]
run, longest first, each required to end in an alphanumeric and to be
followed by the literal hyphen-v and a matching Version group that
extends to the end of the string.  The Version capture is the whole
remainder, so for it only acceptance matters, which is decided by
searching over the possible digit-group splits. -/

/-- All ways to split off a nonempty all-digit prefix, as the digit
groups of the version pattern can. -/
def prefixSplits : List Char → List (List Char × List Char)
  | [] => []
  | c :: cs =>
    if isDigitC c then
      ([c], cs) :: (prefixSplits cs).map (fun p => (c :: p.1, p.2))
    else []

/-- The optional prerelease tail of the version pattern, anchored at the
end: empty, or a hyphen followed by one or more [a-zA-Z0-9-_.]. -/
def versionTailOk (cs : List Char) : Bool :=
  match cs with
  | [] => true
  | c :: rest => c = '-' && !rest.isEmpty && rest.all preChar

/-- Acceptance of the Version group body: digits, any character, digits,
any character, digits, then the optional prerelease tail. -/
def versionBody (cs : List Char) : Bool :=
  (prefixSplits cs).any fun p1 =>
    match p1.2 with
    | c1 :: r2 =>
      anyCharRe c1 &&
        ((prefixSplits r2).any fun p2 =>
          match p2.2 with
          | c2 :: r4 =>
            anyCharRe c2 &&
              ((prefixSplits r4).any fun p3 => versionTailOk p3.2)
          | [] => false)
    | [] => false

/-- One Name candidate: the prefix of the given length, which must end
in an alphanumeric and be followed by the literal hyphen-v and a
matching version body. -/
def candOk (s : List Char) (len1 : Nat) : Option (List Char × List Char) :=
  let nm := s.take len1
  if nm.getLast?.elim false alnumChar then
    match s.drop len1 with
    | c1 :: c2 :: rest =>
      if c1 = '-' ∧ c2 = 'v' ∧ versionBody rest = true then some (nm, rest) else none
    | _ => none
  else none

/-- Try Name candidates greedily, longest first, as the backtracking
order of the star in the Name group does. -/
def matchNameVer (s : List Char) : Nat → Option (List Char × List Char)
  | 0 => none
  | len1 + 1 =>
    match candOk s (len1 + 1) with
    | some r => some r
    | none => matchNameVer s len1

/-- FindStringSubmatch against pluginRegexp: the Kind, Name and Version
captures, or none when the whole string does not match. -/
def pluginRegexpMatch (s : List Char) : Option (List Char × List Char × List Char) :=
  let kind := s.takeWhile isLowerC
  if kind.isEmpty then none
  else
    match s.drop kind.length with
    | c :: rest =>
      if c = '-' then
        (matchNameVer rest (rest.takeWhile nameChar).length).map
          (fun p => (kind, p.1, p.2))
      else none
    | [] => none

/-! ### The plugin model -/

/-- PluginInfo, restricted to the fields the embedded operations use.
Path and the two timestamps are descriptive only and never influence
any operation modelled here. -/
structure PluginInfo where
  name : List Char
  kind : List Char
  version : Option SemVer
  size : Nat
deriving DecidableEq, Repr

/-- IsPluginKind: analyzer, language or resource. -/
def isPluginKind (k : List Char) : Bool :=
  k == "analyzer".toList || k == "language".toList || k == "resource".toList

/-- PluginInfo.Dir: kind-name, plus -v and the version string when a
version is present. -/
def PluginInfo.dir (p : PluginInfo) : List Char :=
  p.kind ++ '-' :: p.name ++
    (match p.version with
     | none => []
     | some v => '-' :: 'v' :: verString v)

/-- PluginInfo.FilePrefix: pulumi-kind-name. -/
def filePref (kind name : List Char) : List Char :=
  "pulumi-".toList ++ kind ++ '-' :: name

/-- PluginInfo.FileSuffix: .exe on Windows, empty elsewhere. -/
def fileSfx (windows : Bool) : List Char := if windows then ".exe".toList else []

/-- PluginInfo.File: prefix plus suffix. -/
def fileNameOf (windows : Bool) (kind name : List Char) : List Char :=
  filePref kind name ++ fileSfx windows

/-- A snapshot of a filesystem subtree: a named regular file with its
byte size, or a named directory with its children. -/
inductive FsNode where
  | file (name : List Char) (sz : Nat)
  | dir (name : List Char) (children : List FsNode)
deriving Repr

/-- The name of a node. -/
def FsNode.nameOf : FsNode → List Char
  | .file n _ => n
  | .dir n _ => n

/-- Whether a node is a directory (FileInfo.IsDir). -/
def FsNode.isDirB : FsNode → Bool
  | .file _ _ => false
  | .dir _ _ => true

mutual

/-- The recursive size sum computed by getPluginSize over an existing
subtree: regular files contribute their size, directories recurse. -/
def nodeSize : FsNode → Nat
  | .file _ sz => sz
  | .dir _ ch => nodesSize ch

/-- Size of a directory listing, entry by entry. -/
def nodesSize : List FsNode → Nat
  | [] => 0
  | n :: rest => nodeSize n + nodesSize rest

end

/-- getPluginSize: reading a missing path reports size 0 and no error
(the IsNotExist branch); reading a regular file fails as ReadDir does;
reading a directory sums the subtree (within one snapshot every listed
child exists, so the recursion cannot fail). -/
def getPluginSize : Option FsNode → Except (List Char) Nat
  | none => .ok 0
  | some (.file _ _) => .error "not a directory".toList
  | some (.dir _ ch) => .ok (nodesSize ch)

/-- PluginInfo.SetFileMetadata.  The directory may be statted at one
instant and sized at a later one, and a concurrent delete may remove it
in between, so the two observations are separate arguments: os.Stat
fails when the path is already gone at stat time, and otherwise the
size probe runs on the possibly-later snapshot.  The timestamps the Go
code also records are descriptive only and are not modelled. -/
def setFileMetadata (info : PluginInfo) (statNode : Option FsNode)
    (probeNode : Option FsNode) : Except (List Char) PluginInfo :=
  match statNode with
  | none => .error "stat failed".toList
  | some _ =>
    match getPluginSize probeNode with
    | .error e => .error ("getting plugin dir size: ".toList ++ e)
    | .ok sz => .ok ⟨info.name, info.kind, info.version, sz⟩

/-- tryPlugin: only directories qualify; the name must match
pluginRegexp; the Kind capture must be a known kind, the Name capture
nonempty, and the Version capture must survive ParseTolerant --
otherwise the entry is skipped by returning none. -/
def tryPlugin (nm : List Char) (isDir : Bool) : Option (List Char × List Char × SemVer) :=
  if !isDir then none
  else
    match pluginRegexpMatch nm with
    | none => none
    | some (k, n, vs) =>
      match (if isPluginKind k then some k else none), parseTolerant vs with
      | some kind, some ver => if n = [] then none else some (kind, n, ver)
      | _, _ => none

/-- The machine state the cache operations see: whether the home
directory resolves (user.Current), the resolved plugin directory path,
the listing of the cache root (none when the directory does not exist),
and the GOOS file-suffix flag. -/
structure World where
  userOk : Bool
  pluginDirPath : List Char
  pluginRoot : Option (List FsNode)
  windows : Bool

/-- GetPluginDir: fails when the home directory cannot be resolved. -/
def getPluginDir (w : World) : Except (List Char) (List Char) :=
  if w.userOk then .ok w.pluginDirPath else .error "getting user home directory".toList

/-- PluginInfo.DirPath: cache root joined with the plugin directory. -/
def dirPathE (w : World) (p : PluginInfo) : Except (List Char) (List Char) :=
  match getPluginDir w with
  | .error e => .error e
  | .ok d => .ok (d ++ '/' :: p.dir)

/-- PluginInfo.FilePath: the plugin directory joined with the primary
executable name. -/
def filePathE (w : World) (p : PluginInfo) : Except (List Char) (List Char) :=
  match dirPathE w p with
  | .error e => .error e
  | .ok d => .ok (d ++ '/' :: fileNameOf w.windows p.kind p.name)

/-- os.Stat for a path directly under the cache root (the only paths the
embedded operations stat): the child of that name, of any type. -/
def statW (w : World) (path : List Char) : Option FsNode :=
  match w.pluginRoot with
  | none => none
  | some children => children.find? (fun nd => w.pluginDirPath ++ '/' :: nd.nameOf == path)

/-- HasPlugin: DirPath resolves and os.Stat on it succeeds.  Note the Go
code does not inspect the mode of what it statted. -/
def hasPlugin (w : World) (p : PluginInfo) : Bool :=
  match dirPathE w p with
  | .error _ => false
  | .ok d => (statW w d).isSome

/-- The loop body of GetPlugins over the listing of the cache root:
entries rejected by tryPlugin are skipped; accepted ones get their
metadata attached (within the snapshot, stat and probe see the same
node) and are emitted in listing order. -/
def getPluginsFrom : List FsNode → Except (List Char) (List PluginInfo)
  | [] => .ok []
  | nd :: rest =>
    match tryPlugin nd.nameOf nd.isDirB with
    | none => getPluginsFrom rest
    | some (kind, name, ver) =>
      match setFileMetadata ⟨name, kind, some ver, 0⟩ (some nd) (some nd) with
      | .error e => .error e
      | .ok p =>
        match getPluginsFrom rest with
        | .error e => .error e
        | .ok ps => .ok (p :: ps)

/-- GetPlugins: resolve the cache root (failure propagates), treat a
missing root as an empty cache, then scan the listing. -/
def getPlugins (w : World) : Except (List Char) (List PluginInfo) :=
  match getPluginDir w with
  | .error e => .error e
  | .ok _ =>
    match w.pluginRoot with
    | none => .ok []
    | some children => getPluginsFrom children

/-- The nil-guarded GTE test of the HasPluginGTE loop: both versions
must be present. -/
def versionGTEOpt : Option SemVer → Option SemVer → Bool
  | some a, some b => verGTE a b
  | _, _ => false

/-- HasPluginGTE: an exact HasPlugin hit wins; otherwise scan for a
record with the same name and kind whose version is present and at
least the requested one. -/
def hasPluginGTE (w : World) (p : PluginInfo) : Except (List Char) Bool :=
  if hasPlugin w p then .ok true
  else
    match getPlugins w with
    | .error e => .error e
    | .ok ps =>
      .ok (ps.any fun q => q.name == p.name && q.kind == p.kind &&
        versionGTEOpt q.version p.version)

/-- The second arm of the GetPluginPath selection: the current selection
has no version, or the candidate has a version strictly above it. -/
def rule2Cond (mm : PluginInfo) (plugin : PluginInfo) : Bool :=
  match mm.version with
  | none => true
  | some mv =>
    match plugin.version with
    | none => false
    | some pv => verGT pv mv

/-- The third arm: a minimum was requested and the candidate's version
is at least that minimum. -/
def rule3Cond (version : Option SemVer) (plugin : PluginInfo) : Bool :=
  match version, plugin.version with
  | some v, some pv => verGTE pv v
  | _, _ => false

/-- One iteration of the GetPluginPath candidate loop.  The loop runs
under pre-Go-1.22 range semantics: plugin is a single variable reused by
every iteration, and the adoption arms store m = &plugin, its address.
Once match has been set it therefore points at that one variable, and
every later read of *match inside the loop yields the CURRENT element,
not the element that was adopted.  Resolving the alias, the arms read:
arm 1 fires when match is still nil and no minimum was requested; arm 2
is rule2Cond applied to the current element twice, since match.Version
is plugin.Version (so plugin.Version.GT(*match.Version) is a
self-comparison); arm 3 is unchanged.  The only state the loop carries
from one iteration to the next is whether match is non-nil, a Bool. -/
def loopAdopt (kind name : List Char) (version : Option SemVer)
    (matched : Bool) (plugin : PluginInfo) : Bool :=
  if plugin.kind = kind ∧ plugin.name = name then
    let m : Bool :=
      if matched = false ∧ version = none then true
      else if matched = true ∧ rule2Cond plugin plugin then true
      else if rule3Cond version plugin then true
      else false
    if m then true else matched
  else matched

/-- GetPluginPath: the search-path override with the unversioned file
prefix wins outright; otherwise scan the cache and fold the candidate
loop.  When the loop ever set match, match points at the reused range
variable, which after the loop holds the value of the LAST record of the
scanned list, so the returned directory and file path are that record's
(the getLast? none arm is unreachable: a set match needs an iteration).
When match was never set the result is the empty pair. -/
def getPluginPath (w : World) (lookPath : List Char → Option (List Char))
    (kind name : List Char) (version : Option SemVer) :
    Except (List Char) (List Char × List Char) :=
  match lookPath (filePref kind name) with
  | some path => .ok ([], path)
  | none =>
    match getPlugins w with
    | .error e => .error ("loading plugin list: ".toList ++ e)
    | .ok plugins =>
      if plugins.foldl (loopAdopt kind name version) false then
        match plugins.getLast? with
        | some m =>
          match dirPathE w m, filePathE w m with
          | .ok md, .ok mp => .ok (md, mp)
          | .error e, _ => .error e
          | _, .error e => .error e
        | none => .ok ([], [])
      else .ok ([], [])

/-! ### The installer (PluginInfo.Install) -/

/-- A tar entry as the install loop distinguishes them: a directory, a
regular file with mode and contents, or anything else with its raw type
flag. -/
inductive TarEntry where
  | dir (name : List Char)
  | reg (name : List Char) (mode : Nat) (content : List Nat)
  | other (name : List Char) (typeflag : Nat)
deriving DecidableEq, Repr

/-- Whether an entry is of the unsupported kind. -/
def TarEntry.isOther : TarEntry → Bool
  | .other _ _ => true
  | _ => false

/-- The mutable disk area Install writes into: the set of created
directories and the written files with their byte contents. -/
structure DiskState where
  dirs : List (List Char)
  files : List (List Char × List Nat)
deriving DecidableEq, Repr

/-- filepath.Join for the simple names occurring here. -/
def joinPath (a b : List Char) : List Char := a ++ '/' :: b

/-- The contents of a file, if present. -/
def lookupFile (st : DiskState) (path : List Char) : Option (List Nat) :=
  (st.files.find? (fun f => f.1 == path)).map (fun f => f.2)

/-- os.Stat during install: does anything exist at the path. -/
def statDisk (st : DiskState) (path : List Char) : Bool :=
  st.dirs.contains path || st.files.any (fun f => f.1 == path)

/-- os.MkdirAll. -/
def mkdirDisk (st : DiskState) (path : List Char) : DiskState :=
  ⟨path :: st.dirs, st.files⟩

/-- The O_CREATE or O_RDWR write without O_TRUNC that Install performs:
the new bytes overwrite from offset zero, and any stale tail of a
longer pre-existing file survives. -/
def writeNoTrunc (st : DiskState) (path : List Char) (content : List Nat) : DiskState :=
  match lookupFile st path with
  | none => ⟨st.dirs, (path, content) :: st.files⟩
  | some old =>
    ⟨st.dirs, (path, content ++ old.drop content.length) ::
      st.files.filter (fun f => !(f.1 == path))⟩

/-- The unsupported-entry error text: unexpected plugin file type,
naming the entry and its type flag. -/
def unexpectedMsg (nm : List Char) (typeflag : Nat) : List Char :=
  "unexpected plugin file type ".toList ++ nm ++ " (".toList ++ natDec typeflag ++ [')']

/-- The entry loop of Install: directories are created when nothing
exists at their path, regular files are written without truncation, and
any other entry type aborts immediately with the unsupported-entry
error, returning the disk state written so far. -/
def installEntries (pluginDir : List Char) :
    List TarEntry → DiskState → DiskState × Option (List Char)
  | [], st => (st, none)
  | .dir nm :: rest, st =>
    let path := joinPath pluginDir nm
    let st1 := if statDisk st path then st else mkdirDisk st path
    installEntries pluginDir rest st1
  | .reg nm _ content :: rest, st =>
    installEntries pluginDir rest (writeNoTrunc st (joinPath pluginDir nm) content)
  | .other nm tf :: _, st => (st, some (unexpectedMsg nm tf))

/-- Install, from the point where the archive entries are available:
create the plugin directory, then run the entry loop.  The gzip layer
and the closing of the stream are not modelled. -/
def install (pluginDir : List Char) (entries : List TarEntry) (st : DiskState) :
    DiskState × Option (List Char) :=
  installEntries pluginDir entries (mkdirDisk st pluginDir)

/-! ### Statement-side predicates -/

/-- The descriptor-name validity stated by the spec: nonempty, only
alphanumerics and hyphens, and no hyphen at either boundary. -/
def validName (nm : List Char) : Bool :=
  !nm.isEmpty && nm.all nameChar &&
    !(nm.head? == some '-') && !(nm.getLast? == some '-')

/-- Whether the cache root has a child of the given name that is a
directory (what the spec means by: the directory exists under the cache
root). -/
def isDirAt (w : World) (nm : List Char) : Bool :=
  (statW w (w.pluginDirPath ++ '/' :: nm)).elim false FsNode.isDirB

/-- The second selection arm with its two nil-version guards removed,
written to state that those guards are dead for scanned records: the
comparison definition for the never-exercised arms. -/
def rule2CondScanned (mm : PluginInfo) (plugin : PluginInfo) : Bool :=
  match mm.version, plugin.version with
  | some mv, some pv => verGT pv mv
  | _, _ => false

/-- The candidate-loop body with the nil-version arm of the second rule
pruned (under the aliasing, that arm reads the CURRENT record's version,
so pruning it replaces rule2Cond plugin plugin by its both-versions-
present core), used to express that the pruned arm never fires on
scanned records. -/
def loopAdoptScanned (kind name : List Char) (version : Option SemVer)
    (matched : Bool) (plugin : PluginInfo) : Bool :=
  if plugin.kind = kind ∧ plugin.name = name then
    let m : Bool :=
      if matched = false ∧ version = none then true
      else if matched = true ∧ rule2CondScanned plugin plugin then true
      else if rule3Cond version plugin then true
      else false
    if m then true else matched
  else matched

/-- The HasPluginGTE comparison with the record-side nil guard removed:
the Go conjunction p.Version != nil && plug.Version != nil &&
p.Version.GTE(*plug.Version) without its first test, so the
dereference of a missing record version is modelled by an arbitrary
default d.  Stating the equality with versionGTEOpt for EVERY d says the
guard, and the dereference it protects, never matter on scanned
records. -/
def versionGTEOptPruned (d : SemVer) : Option SemVer → Option SemVer → Bool
  | qv, some pv => verGTE (qv.getD d) pv
  | _, none => false

/-! ## Lemmas about decimal printing and parsing -/

theorem charVal_digitCh (d : Nat) (h : d < 10) : charVal (digitCh d) = d := by
  interval_cases d <;> rfl

theorem isDigitC_digitCh (d : Nat) (h : d < 10) : isDigitC (digitCh d) = true := by
  interval_cases d <;> rfl

theorem digitCh_ne_zero (d : Nat) (h0 : 0 < d) (h : d < 10) : digitCh d ≠ '0' := by
  interval_cases d <;> decide

theorem natDecAux_all_digit (fuel n : Nat) :
    (natDecAux fuel n).all isDigitC = true := by
  induction fuel generalizing n with
  | zero => rfl
  | succ fuel ih =>
    by_cases h : n = 0
    · simp [natDecAux, h]
    · simp only [natDecAux, if_neg h, List.all_append]
      refine Bool.and_eq_true_iff.mpr ⟨ih _, ?_⟩
      simp [isDigitC_digitCh _ (Nat.mod_lt _ (by norm_num))]

theorem natDec_all_digit (n : Nat) : (natDec n).all isDigitC = true := by
  by_cases h : n = 0
  · simp [natDec, h]; rfl
  · simp only [natDec, if_neg h]; exact natDecAux_all_digit n n

theorem natDecAux_ne_nil (fuel n : Nat) (h0 : 0 < n) (hf : n ≤ fuel) :
    natDecAux fuel n ≠ [] := by
  cases fuel with
  | zero => omega
  | succ fuel => simp [natDecAux, Nat.pos_iff_ne_zero.mp h0]

theorem natDec_ne_nil (n : Nat) : natDec n ≠ [] := by
  by_cases h : n = 0
  · simp [natDec, h]
  · simp only [natDec, if_neg h]
    exact natDecAux_ne_nil n n (Nat.pos_of_ne_zero h) le_rfl

theorem foldl_digits_append (xs : List Char) (c : Char) (acc : Nat) :
    (xs ++ [c]).foldl (fun a c => 10 * a + charVal c) acc =
      10 * (xs.foldl (fun a c => 10 * a + charVal c) acc) + charVal c := by
  simp [List.foldl_append]

theorem natDecAux_foldl (fuel : Nat) : ∀ n acc, n ≤ fuel →
    (natDecAux fuel n).foldl (fun a c => 10 * a + charVal c) acc =
      acc * 10 ^ (natDecAux fuel n).length + n := by
  induction fuel with
  | zero => intro n acc h; interval_cases n; simp [natDecAux]
  | succ fuel ih =>
    intro n acc h
    by_cases h0 : n = 0
    · simp [natDecAux, h0]
    · have hd : n / 10 ≤ fuel := by
        have : n / 10 < n := Nat.div_lt_self (Nat.pos_of_ne_zero h0) (by norm_num)
        omega
      simp only [natDecAux, if_neg h0, foldl_digits_append, ih (n / 10) acc hd,
        List.length_append, List.length_singleton]
      rw [charVal_digitCh _ (Nat.mod_lt _ (by norm_num))]
      rw [pow_succ]
      have := Nat.div_add_mod n 10
      ring_nf
      omega

theorem parseVal_natDec (n : Nat) : parseVal (natDec n) = n := by
  by_cases h : n = 0
  · simp [natDec, h, parseVal]; rfl
  · simp only [natDec, if_neg h, parseVal]
    simpa using natDecAux_foldl n n 0 le_rfl

theorem natDecAux_zero (fuel : Nat) : natDecAux fuel 0 = [] := by
  cases fuel <;> simp [natDecAux]

theorem natDecAux_head (fuel : Nat) : ∀ n, 0 < n → n ≤ fuel →
    ∃ d, 0 < d ∧ d < 10 ∧ (natDecAux fuel n).head? = some (digitCh d) := by
  induction fuel with
  | zero => intro n h0 h; omega
  | succ fuel ih =>
    intro n h0 h
    have h0' : n ≠ 0 := Nat.pos_iff_ne_zero.mp h0
    by_cases hq : n / 10 = 0
    · have hn : n < 10 := by omega
      refine ⟨n % 10, ?_, Nat.mod_lt _ (by norm_num), ?_⟩
      · omega
      · simp [natDecAux, h0', hq, natDecAux_zero]
    · obtain ⟨d, hd0, hd10, hh⟩ := ih (n / 10) (Nat.pos_of_ne_zero hq)
        (by
          have : n / 10 < n := Nat.div_lt_self h0 (by norm_num)
          omega)
      refine ⟨d, hd0, hd10, ?_⟩
      have hne : natDecAux fuel (n / 10) ≠ [] :=
        natDecAux_ne_nil fuel (n / 10) (Nat.pos_of_ne_zero hq)
          (by
            have : n / 10 < n := Nat.div_lt_self h0 (by norm_num)
            omega)
      simp only [natDecAux, if_neg h0']
      cases hx : natDecAux fuel (n / 10) with
      | nil => exact absurd hx hne
      | cons y ys => rw [hx] at hh; simpa using hh

theorem natDec_head_ne_zero (n : Nat) (h0 : 0 < n) :
    (natDec n).head? ≠ some '0' := by
  obtain ⟨d, hd0, hd10, hh⟩ := natDecAux_head n n h0 le_rfl
  rw [natDec, if_neg (Nat.pos_iff_ne_zero.mp h0), hh]
  intro hc
  exact digitCh_ne_zero d hd0 hd10 (by injection hc)

theorem hasLeadingZeroes_natDec (n : Nat) : hasLeadingZeroes (natDec n) = false := by
  by_cases h : n = 0
  · simp [natDec, h, hasLeadingZeroes]
  · have := natDec_head_ne_zero n (Nat.pos_of_ne_zero h)
    simp only [hasLeadingZeroes, Bool.and_eq_false_iff]
    right
    simpa using this

theorem parseNumChecked_natDec (n : Nat) (h : n < numBound) :
    parseNumChecked (natDec n) = some n := by
  simp only [parseNumChecked, natDec_all_digit, if_true, hasLeadingZeroes_natDec,
    if_false, parseUint, parseVal_natDec]
  rw [if_neg (natDec_ne_nil n), if_pos h]
  simp

/-! ## Character-class lemmas -/

theorem ne_of_toNat {c d : Char} (h : c.toNat ≠ d.toNat) : c ≠ d :=
  fun he => h (he ▸ rfl)

theorem isDigitC_iff {c : Char} : isDigitC c = true ↔ 48 ≤ c.toNat ∧ c.toNat ≤ 57 := by
  simp [isDigitC]

theorem isLowerC_iff {c : Char} : isLowerC c = true ↔ 97 ≤ c.toNat ∧ c.toNat ≤ 122 := by
  simp [isLowerC]

theorem isAlphaC_iff {c : Char} : isAlphaC c = true ↔
    (97 ≤ c.toNat ∧ c.toNat ≤ 122) ∨ (65 ≤ c.toNat ∧ c.toNat ≤ 90) := by
  simp [isAlphaC]

theorem alnumChar_iff {c : Char} : alnumChar c = true ↔
    (97 ≤ c.toNat ∧ c.toNat ≤ 122) ∨ (65 ≤ c.toNat ∧ c.toNat ≤ 90) ∨
      (48 ≤ c.toNat ∧ c.toNat ≤ 57) := by
  simp [alnumChar, isAlphaC_iff, isDigitC_iff]; tauto

theorem nameChar_iff {c : Char} : nameChar c = true ↔
    (97 ≤ c.toNat ∧ c.toNat ≤ 122) ∨ (65 ≤ c.toNat ∧ c.toNat ≤ 90) ∨
      (48 ≤ c.toNat ∧ c.toNat ≤ 57) ∨ c.toNat = 45 := by
  simp [nameChar, alnumChar_iff]; tauto

theorem goAlphanum_iff {c : Char} : goAlphanum c = true ↔
    (97 ≤ c.toNat ∧ c.toNat ≤ 122) ∨ (65 ≤ c.toNat ∧ c.toNat ≤ 90) ∨
      (48 ≤ c.toNat ∧ c.toNat ≤ 57) ∨ c.toNat = 45 := by
  simp [goAlphanum, isAlphaC_iff, isDigitC_iff]; tauto

theorem preChar_of_goAlphanum {c : Char} (h : goAlphanum c = true) : preChar c = true := by
  rcases goAlphanum_iff.mp h with h | h | h | h <;>
    simp [preChar, alnumChar_iff] <;> omega

theorem preChar_of_digit {c : Char} (h : isDigitC c = true) : preChar c = true := by
  have := isDigitC_iff.mp h
  simp [preChar, alnumChar_iff]; omega

theorem nameChar_of_digit {c : Char} (h : isDigitC c = true) : nameChar c = true := by
  have := isDigitC_iff.mp h
  rw [nameChar_iff]; omega

theorem goAlphanum_eq_nameChar (c : Char) : goAlphanum c = nameChar c := by
  by_cases h : nameChar c = true
  · rw [h, goAlphanum_iff.mpr (nameChar_iff.mp h)]
  · rw [Bool.not_eq_true] at h
    rw [h]
    rw [Bool.eq_false_iff]
    intro hg
    rw [← Bool.not_eq_true] at h
    exact h (nameChar_iff.mpr (goAlphanum_iff.mp hg))

theorem toNat_dot : ('.').toNat = 46 := rfl

theorem toNat_dash : ('-').toNat = 45 := rfl

theorem toNat_plus : ('+').toNat = 43 := rfl

theorem toNat_vCh : ('v').toNat = 118 := rfl

theorem eq_dash_of_toNat {c : Char} (h : c.toNat = 45) : c = '-' := by
  rw [← Char.ofNat_toNat c, h]

theorem digit_ne_dot {c : Char} (h : isDigitC c = true) : c ≠ '.' := by
  have := isDigitC_iff.mp h
  exact ne_of_toNat (by rw [toNat_dot]; omega)

theorem digit_ne_dash {c : Char} (h : isDigitC c = true) : c ≠ '-' := by
  have := isDigitC_iff.mp h
  exact ne_of_toNat (by rw [toNat_dash]; omega)

theorem digit_ne_plus {c : Char} (h : isDigitC c = true) : c ≠ '+' := by
  have := isDigitC_iff.mp h
  exact ne_of_toNat (by rw [toNat_plus]; omega)

theorem digit_not_space {c : Char} (h : isDigitC c = true) : isSpaceC c = false := by
  have := isDigitC_iff.mp h
  simp [isSpaceC]; omega

theorem goAlphanum_ne_dot {c : Char} (h : goAlphanum c = true) : c ≠ '.' := by
  have := goAlphanum_iff.mp h
  exact ne_of_toNat (by rw [toNat_dot]; omega)

theorem goAlphanum_ne_plus {c : Char} (h : goAlphanum c = true) : c ≠ '+' := by
  have := goAlphanum_iff.mp h
  exact ne_of_toNat (by rw [toNat_plus]; omega)

theorem goAlphanum_not_space {c : Char} (h : goAlphanum c = true) : isSpaceC c = false := by
  have := goAlphanum_iff.mp h
  simp [isSpaceC]; omega

theorem alnum_of_nameChar_ne_dash {c : Char} (h : nameChar c = true) (hd : c ≠ '-') :
    alnumChar c = true := by
  have h45 : c.toNat ≠ 45 := fun he => hd (eq_dash_of_toNat he)
  have := nameChar_iff.mp h
  rw [alnumChar_iff]; omega

theorem nameChar_of_alnum {c : Char} (h : alnumChar c = true) : nameChar c = true := by
  simp [nameChar, h]

theorem alnum_ne_dash {c : Char} (h : alnumChar c = true) : c ≠ '-' := by
  have := alnumChar_iff.mp h
  exact ne_of_toNat (by rw [toNat_dash]; omega)

theorem lower_is_alnum {c : Char} (h : isLowerC c = true) : alnumChar c = true := by
  have := isLowerC_iff.mp h
  rw [alnumChar_iff]; omega

theorem lower_ne_dash {c : Char} (h : isLowerC c = true) : c ≠ '-' := by
  have := isLowerC_iff.mp h
  exact ne_of_toNat (by rw [toNat_dash]; omega)

theorem digit_not_lower {c : Char} (h : isDigitC c = true) : isLowerC c = false := by
  have := isDigitC_iff.mp h
  simp [isLowerC]; omega

theorem digit_anyCharRe {c : Char} (h : isDigitC c = true) : anyCharRe c = true := by
  have := isDigitC_iff.mp h
  simp [anyCharRe]; omega

theorem digit_ne_v {c : Char} (h : isDigitC c = true) : c ≠ 'v' := by
  have := isDigitC_iff.mp h
  exact ne_of_toNat (by rw [toNat_vCh]; omega)

/-! ## List helper lemmas -/

theorem takeWhile_app {p : Char → Bool} {A : List Char} (B : List Char)
    (h : A.all p = true) : (A ++ B).takeWhile p = A ++ B.takeWhile p := by
  induction A with
  | nil => simp
  | cons c rest ih =>
    rw [List.all_cons, Bool.and_eq_true_iff] at h
    simp [List.takeWhile_cons, h.1, ih h.2]

theorem takeWhile_cons_false {p : Char → Bool} {c : Char} (rest : List Char)
    (h : p c = false) : (c :: rest).takeWhile p = [] := by
  simp [List.takeWhile_cons, h]

theorem head?_app_left {A : List Char} (B : List Char) (h : A ≠ []) :
    (A ++ B).head? = A.head? := by
  cases A with
  | nil => exact absurd rfl h
  | cons c rest => simp

theorem dropWhile_head_false {p : Char → Bool} {cs : List Char}
    (h : ∀ c, cs.head? = some c → p c = false) : cs.dropWhile p = cs := by
  cases cs with
  | nil => rfl
  | cons c rest => simp [List.dropWhile_cons, h c rfl]

theorem trimSpace_id {cs : List Char}
    (hh : ∀ c, cs.head? = some c → isSpaceC c = false)
    (hl : ∀ c, cs.getLast? = some c → isSpaceC c = false) :
    trimSpace cs = cs := by
  rw [trimSpace, dropWhile_head_false hh, dropWhile_head_false, List.reverse_reverse]
  intro c hc
  exact hl c (by rwa [← List.head?_reverse])

/-! ## Splitting lemmas -/

theorem breakAt_no_sep {sep : Char} {cs : List Char}
    (h : ∀ c ∈ cs, c ≠ sep) : breakAt sep cs = none := by
  induction cs with
  | nil => rfl
  | cons c rest ih =>
    simp only [breakAt, if_neg (h c (List.mem_cons_self c rest))]
    rw [ih (fun x hx => h x (List.mem_cons_of_mem c hx))]
    rfl

theorem breakAt_app {sep : Char} {A : List Char} (B : List Char)
    (h : ∀ c ∈ A, c ≠ sep) : breakAt sep (A ++ sep :: B) = some (A, B) := by
  induction A with
  | nil => simp [breakAt]
  | cons c rest ih =>
    simp only [List.cons_append, breakAt, if_neg (h c (List.mem_cons_self c rest)),
      List.append_eq]
    rw [ih (fun x hx => h x (List.mem_cons_of_mem c hx))]
    rfl

theorem splitN_no_sep {sep : Char} {cs : List Char} (n : Nat)
    (h : ∀ c ∈ cs, c ≠ sep) : splitN sep (n + 1) cs = [cs] := by
  cases n with
  | zero => rfl
  | succ n => simp [splitN, breakAt_no_sep h]

theorem splitN_step {sep : Char} {A : List Char} (n : Nat) (B : List Char)
    (h : ∀ c ∈ A, c ≠ sep) :
    splitN sep (n + 2) (A ++ sep :: B) = A :: splitN sep (n + 1) B := by
  simp [splitN, breakAt_app B h]

theorem splitAllF_no_sep {sep : Char} {cs : List Char} (fuel : Nat)
    (h : ∀ c ∈ cs, c ≠ sep) : splitAllF sep fuel cs = [cs] := by
  cases fuel with
  | zero => rfl
  | succ fuel => simp [splitAllF, breakAt_no_sep h]

theorem splitAllF_joinDot {sep : Char} (hsep : sep = '.') :
    ∀ (ids : List (List Char)) (fuel : Nat), ids ≠ [] →
      (∀ id ∈ ids, ∀ c ∈ id, c ≠ sep) → ids.length ≤ fuel + 1 →
      splitAllF sep fuel (joinDot ids) = ids := by
  intro ids
  induction ids with
  | nil => intro fuel h; exact absurd rfl h
  | cons x xs ih =>
    intro fuel _ hc hlen
    cases xs with
    | nil =>
      exact splitAllF_no_sep fuel (hc x (List.mem_cons_self x []))
    | cons y ys =>
      cases fuel with
      | zero => simp at hlen
      | succ fuel =>
        have hx : ∀ c ∈ x, c ≠ sep := hc x (List.mem_cons_self x (y :: ys))
        have hjoin : joinDot (x :: y :: ys) = x ++ sep :: joinDot (y :: ys) := by
          rw [hsep]; rfl
        rw [hjoin]
        simp only [splitAllF, breakAt_app _ hx]
        rw [ih fuel (by simp) (fun id hid => hc id (List.mem_cons_of_mem x hid))
          (by simpa using Nat.succ_le_succ_iff.mp hlen)]

theorem splitAll_joinDot (ids : List (List Char)) (hne : ids ≠ [])
    (hc : ∀ id ∈ ids, ∀ c ∈ id, c ≠ '.') :
    splitAll '.' (joinDot ids) = ids := by
  refine splitAllF_joinDot rfl ids (joinDot ids).length hne hc ?_
  induction ids with
  | nil => simp
  | cons x xs ih =>
    cases xs with
    | nil => simp
    | cons y ys =>
      have : joinDot (x :: y :: ys) = x ++ '.' :: joinDot (y :: ys) := rfl
      rw [this]
      simp only [List.length_cons, List.length_append]
      have := ih (by simp) (fun id hid => hc id (List.mem_cons_of_mem x hid))
      simp only [List.length_cons] at this ⊢
      omega

/-! ## The semver print / parse round trip -/

theorem all_mem {α : Type} {p : α → Bool} {cs : List α} (h : cs.all p = true) :
    ∀ c ∈ cs, p c = true := List.all_eq_true.mp h

theorem head?_all {p : Char → Bool} {cs : List Char} (hne : cs ≠ [])
    (h : cs.all p = true) : ∃ c, cs.head? = some c ∧ p c = true := by
  cases cs with
  | nil => exact absurd rfl hne
  | cons c rest =>
    exact ⟨c, rfl, (Bool.and_eq_true_iff.mp (List.all_cons .. ▸ h)).1⟩

theorem dropWhile_all_false {p : Char → Bool} {cs : List Char}
    (h : ∀ c ∈ cs, p c = false) : cs.dropWhile p = cs := by
  cases cs with
  | nil => rfl
  | cons c rest => simp [List.dropWhile_cons, h c (List.mem_cons_self c rest)]

theorem trimSpace_id_of_all {cs : List Char}
    (h : ∀ c ∈ cs, isSpaceC c = false) : trimSpace cs = cs := by
  rw [trimSpace, dropWhile_all_false h, dropWhile_all_false, List.reverse_reverse]
  intro c hc
  exact h c (List.mem_reverse.mp hc)

theorem joinDot_mem {ids : List (List Char)} {c : Char} (h : c ∈ joinDot ids) :
    c = '.' ∨ ∃ id ∈ ids, c ∈ id := by
  induction ids with
  | nil => simp [joinDot] at h
  | cons x xs ih =>
    cases xs with
    | nil =>
      right
      exact ⟨x, List.mem_cons_self x [], h⟩
    | cons y ys =>
      have hx : joinDot (x :: y :: ys) = x ++ '.' :: joinDot (y :: ys) := rfl
      rw [hx] at h
      rcases List.mem_append.mp h with h | h
      · exact Or.inr ⟨x, List.mem_cons_self x (y :: ys), h⟩
      · rcases List.mem_cons.mp h with h | h
        · exact Or.inl h
        · rcases ih h with h | ⟨id, hid, hc⟩
          · exact Or.inl h
          · exact Or.inr ⟨id, List.mem_cons_of_mem x hid, hc⟩

theorem prStr_chars {id : PRId} (hwf : prWF id = true) :
    ∀ c ∈ prStr id, goAlphanum c = true := by
  cases id with
  | num n =>
    intro c hc
    have hd := all_mem (natDec_all_digit n) c hc
    rw [goAlphanum, hd]
    simp
  | alphanum s =>
    intro c hc
    simp only [prWF, Bool.and_eq_true_iff] at hwf
    exact all_mem hwf.1.2 c hc

theorem prStr_ne_nil {id : PRId} (hwf : prWF id = true) : prStr id ≠ [] := by
  cases id with
  | num n => exact natDec_ne_nil n
  | alphanum s =>
    simp only [prWF, Bool.and_eq_true_iff] at hwf
    have := hwf.1.1
    simpa [List.isEmpty_iff] using this

/-- The characters of the prerelease suffix are goAlphanum or the dot
separator. -/
theorem preSuffix_chars {ids : List PRId} (hwf : ∀ id ∈ ids, prWF id = true) :
    ∀ c ∈ joinDot (ids.map prStr), c = '.' ∨ goAlphanum c = true := by
  intro c hc
  rcases joinDot_mem hc with h | ⟨id, hid, hcid⟩
  · exact Or.inl h
  · rcases List.mem_map.mp hid with ⟨pid, hpid, rfl⟩
    exact Or.inr (prStr_chars (hwf pid hpid) c hcid)

/-- The fully right-nested shape of a buildless version string. -/
theorem verString_shape {v : SemVer} (hb : v.build = []) :
    verString v =
      natDec v.major ++ '.' :: (natDec v.minor ++ '.' :: (natDec v.patch ++
        (match v.pre with
         | [] => []
         | ids => '-' :: joinDot (ids.map prStr)))) := by
  rw [verString, hb]
  simp

/-- Every character of a (buildless, wellformed) version string is a
digit, a dot, a hyphen, or goAlphanum. -/
theorem verString_chars {v : SemVer} (hwf : verWF v = true) (hb : v.build = []) :
    ∀ c ∈ verString v,
      isDigitC c = true ∨ c = '.' ∨ c = '-' ∨ goAlphanum c = true := by
  have hpre : ∀ id ∈ v.pre, prWF id = true := by
    simp only [verWF, Bool.and_eq_true_iff] at hwf
    exact all_mem hwf.2
  have hvs := verString_shape hb
  obtain ⟨M, m, p, pre, bld⟩ := v
  subst hb
  intro c hc
  rw [hvs] at hc
  rcases List.mem_append.mp hc with hc | hc
  · exact Or.inl (all_mem (natDec_all_digit _) c hc)
  rcases List.mem_cons.mp hc with rfl | hc
  · exact Or.inr (Or.inl rfl)
  rcases List.mem_append.mp hc with hc | hc
  · exact Or.inl (all_mem (natDec_all_digit _) c hc)
  rcases List.mem_cons.mp hc with rfl | hc
  · exact Or.inr (Or.inl rfl)
  rcases List.mem_append.mp hc with hc | hc
  · exact Or.inl (all_mem (natDec_all_digit _) c hc)
  cases pre with
  | nil => simp at hc
  | cons i irest =>
    rcases List.mem_cons.mp hc with rfl | hc
    · exact Or.inr (Or.inr (Or.inl rfl))
    · rcases preSuffix_chars hpre c hc with h | h
      · exact Or.inr (Or.inl h)
      · exact Or.inr (Or.inr (Or.inr h))

theorem verString_not_space {v : SemVer} (hwf : verWF v = true) (hb : v.build = []) :
    ∀ c ∈ verString v, isSpaceC c = false := by
  intro c hc
  rcases verString_chars hwf hb c hc with h | h | h | h
  · exact digit_not_space h
  · subst h; rfl
  · subst h; rfl
  · exact goAlphanum_not_space h

theorem verString_no_plus {v : SemVer} (hwf : verWF v = true) (hb : v.build = []) :
    ∀ c ∈ verString v, c ≠ '+' := by
  intro c hc
  rcases verString_chars hwf hb c hc with h | h | h | h
  · exact digit_ne_plus h
  · subst h; decide
  · subst h; decide
  · exact goAlphanum_ne_plus h

theorem natDec_no_dot (k : Nat) : ∀ c ∈ natDec k, c ≠ '.' :=
  fun c hc => digit_ne_dot (all_mem (natDec_all_digit k) c hc)

theorem natDec_no_dash (k : Nat) : ∀ c ∈ natDec k, c ≠ '-' :=
  fun c hc => digit_ne_dash (all_mem (natDec_all_digit k) c hc)

theorem parsePRId_prStr {id : PRId} (hwf : prWF id = true) :
    parsePRId (prStr id) = some id := by
  cases id with
  | num n =>
    simp only [prWF, decide_eq_true_eq] at hwf
    simp only [prStr, parsePRId, natDec_all_digit, if_true, hasLeadingZeroes_natDec,
      if_false, parseUint, parseVal_natDec]
    rw [if_neg (natDec_ne_nil n), if_neg (natDec_ne_nil n), if_pos hwf]
    rfl
  | alphanum s =>
    simp only [prWF, Bool.and_eq_true_iff] at hwf
    have hne : s ≠ [] := by simpa [List.isEmpty_iff] using hwf.1.1
    have hnd : s.all isDigitC = false := by
      rcases hwf with ⟨⟨_, _⟩, hnad⟩
      simpa using hnad
    simp only [prStr, parsePRId, if_neg hne, hnd]
    rw [if_neg (by simp), if_pos hwf.1.2]

theorem mapM_parsePRId {ids : List PRId} (hwf : ∀ id ∈ ids, prWF id = true) :
    (ids.map prStr).mapM parsePRId = some ids := by
  induction ids with
  | nil => rfl
  | cons i irest ih =>
    rw [List.map_cons, List.mapM_cons, parsePRId_prStr (hwf i (List.mem_cons_self i irest)),
      ih (fun id hid => hwf id (List.mem_cons_of_mem i hid))]
    rfl

/-- The three-way dot split of a buildless version string: major digits,
minor digits, then the patch digits with the prerelease suffix. -/
theorem verString_splitN {v : SemVer} (hb : v.build = []) :
    splitN '.' 3 (verString v) =
      [natDec v.major, natDec v.minor, natDec v.patch ++
        (match v.pre with
         | [] => []
         | ids => '-' :: joinDot (ids.map prStr))] := by
  rw [verString_shape hb, splitN_step 1 _ (natDec_no_dot v.major),
    splitN_step 0 _ (natDec_no_dot v.minor)]
  rfl

theorem verString_head {v : SemVer} (hb : v.build = []) :
    ∃ c, (verString v).head? = some c ∧ isDigitC c = true := by
  obtain ⟨c, hc, hd⟩ := head?_all (natDec_ne_nil v.major) (natDec_all_digit v.major)
  refine ⟨c, ?_, hd⟩
  rw [verString_shape hb, head?_app_left _ (natDec_ne_nil v.major), hc]

theorem verString_ne_nil {v : SemVer} (hb : v.build = []) : verString v ≠ [] := by
  obtain ⟨c, hc, _⟩ := verString_head hb
  intro h
  rw [h] at hc
  exact Option.noConfusion hc

/-- blang Parse maps the canonical string of a wellformed buildless
version back to that version. -/
theorem parse_verString {v : SemVer} (hwf : verWF v = true) (hb : v.build = []) :
    parse (verString v) = some v := by
  have hsplit := verString_splitN hb
  have hne := verString_ne_nil hb
  obtain ⟨M, m, p, pre, build⟩ := v
  subst hb
  simp only [verWF, Bool.and_eq_true_iff, decide_eq_true_eq] at hwf
  obtain ⟨⟨⟨hM, hm⟩, hp⟩, hpre⟩ := hwf
  have hpre' : ∀ id ∈ pre, prWF id = true := all_mem hpre
  rw [parse, if_neg hne, hsplit]
  simp only [parseNumChecked_natDec M hM, parseNumChecked_natDec m hm]
  cases pre with
  | nil =>
    have hplus : splitN '+' 2 (natDec p) = [natDec p] :=
      splitN_no_sep 1 (fun c hc => digit_ne_plus (all_mem (natDec_all_digit p) c hc))
    have hdash : splitN '-' 2 (natDec p) = [natDec p] :=
      splitN_no_sep 1 (natDec_no_dash p)
    simp only [List.append_nil, hplus, hdash, parseNumChecked_natDec p hp]
  | cons i irest =>
    have hchars : ∀ c ∈ '-' :: joinDot ((i :: irest).map prStr), c ≠ '+' := by
      intro c hc
      rcases List.mem_cons.mp hc with rfl | hc
      · decide
      · rcases joinDot_mem hc with rfl | ⟨id, hid, hcid⟩
        · decide
        · rcases List.mem_map.mp hid with ⟨pid, hpid, rfl⟩
          exact goAlphanum_ne_plus (prStr_chars (hpre' pid hpid) c hcid)
    have hplus : splitN '+' 2 (natDec p ++ '-' :: joinDot ((i :: irest).map prStr)) =
        [natDec p ++ '-' :: joinDot ((i :: irest).map prStr)] :=
      splitN_no_sep 1 (by
        intro c hc
        rcases List.mem_append.mp hc with hc | hc
        · exact digit_ne_plus (all_mem (natDec_all_digit p) c hc)
        · exact hchars c hc)
    have hdash : splitN '-' 2 (natDec p ++ '-' :: joinDot ((i :: irest).map prStr)) =
        [natDec p, joinDot ((i :: irest).map prStr)] := by
      exact splitN_step 0 _ (natDec_no_dash p)
    have hsplitAll : splitAll '.' (joinDot ((i :: irest).map prStr)) =
        (i :: irest).map prStr := by
      refine splitAll_joinDot _ (by simp) ?_
      intro id hid c hc
      rcases List.mem_map.mp hid with ⟨pid, hpid, rfl⟩
      exact goAlphanum_ne_dot (prStr_chars (hpre' pid hpid) c hc)
    simp only [hplus, hdash, parseNumChecked_natDec p hp, hsplitAll,
      mapM_parsePRId hpre']

/-- ParseTolerant maps the canonical string of a wellformed buildless
version back to that version. -/
theorem parseTolerant_verString {v : SemVer} (hwf : verWF v = true)
    (hb : v.build = []) : parseTolerant (verString v) = some v := by
  have htrim : trimSpace (verString v) = verString v :=
    trimSpace_id_of_all (verString_not_space hwf hb)
  obtain ⟨c, hc, hd⟩ := verString_head hb
  have hnv : ¬ (verString v).head? = some 'v' := by
    rw [hc]
    intro h
    exact digit_ne_v hd (by injection h)
  rw [parseTolerant]
  simp only [htrim, if_neg hnv, verString_splitN hb]
  exact parse_verString hwf hb

/-! ## Lemmas about the directory-name regexp -/

theorem drop_app_add {α : Type} (A : List α) (R : List α) (k : Nat) :
    (A ++ R).drop (A.length + k) = R.drop k := by
  induction A with
  | nil => simp
  | cons a rest ih => simp [Nat.succ_add, ih]

theorem drop_app_le {α : Type} (A : List α) (R : List α) :
    ∀ i, i ≤ A.length → (A ++ R).drop i = A.drop i ++ R := by
  induction A with
  | nil =>
    intro i hi
    have : i = 0 := by simpa using hi
    subst this
    simp
  | cons a rest ih =>
    intro i hi
    cases i with
    | zero => simp
    | succ i => simpa using ih i (by simpa using hi)

theorem head?_mem {α : Type} {cs : List α} {c : α} (h : cs.head? = some c) : c ∈ cs := by
  cases cs with
  | nil => exact Option.noConfusion h
  | cons x rest =>
    rw [List.head?_cons] at h
    exact (Option.some.injEq .. ▸ h : x = c) ▸ List.mem_cons_self x rest

theorem prefixSplits_mem {d : List Char} (r : List Char) (hne : d ≠ [])
    (hd : d.all isDigitC = true) : (d, r) ∈ prefixSplits (d ++ r) := by
  induction d with
  | nil => exact absurd rfl hne
  | cons c rest ih =>
    rw [List.all_cons, Bool.and_eq_true_iff] at hd
    simp only [List.cons_append, prefixSplits, if_pos hd.1]
    cases rest with
    | nil => exact List.mem_cons_self _ _
    | cons c2 rest2 =>
      refine List.mem_cons_of_mem _ ?_
      exact List.mem_map.mpr ⟨(c2 :: rest2, r), ih (by simp) hd.2, rfl⟩

theorem versionTailOk_join {i : PRId} {irest : List PRId}
    (hwf : ∀ id ∈ i :: irest, prWF id = true) :
    versionTailOk ('-' :: joinDot ((i :: irest).map prStr)) = true := by
  simp only [versionTailOk, decide_True, Bool.true_and, Bool.and_eq_true_iff]
  constructor
  · have hne : joinDot ((i :: irest).map prStr) ≠ [] := by
      have hpr : prStr i ≠ [] := prStr_ne_nil (hwf i (List.mem_cons_self i irest))
      cases hm : (irest.map prStr) with
      | nil => simpa [joinDot, hm]
      | cons x xs => simp [joinDot, hm]
    simpa [List.isEmpty_iff] using hne
  · refine List.all_eq_true.mpr ?_
    intro c hc
    rcases preSuffix_chars hwf c hc with rfl | h
    · rfl
    · exact preChar_of_goAlphanum h

/-- The version-group body accepts digits, dot, digits, dot, digits, and
any tail accepted by the optional-prerelease pattern. -/
theorem versionBody_parts (A B C tail : List Char)
    (hA : A ≠ []) (hA2 : A.all isDigitC = true)
    (hB : B ≠ []) (hB2 : B.all isDigitC = true)
    (hC : C ≠ []) (hC2 : C.all isDigitC = true)
    (ht : versionTailOk tail = true) :
    versionBody (A ++ '.' :: (B ++ '.' :: (C ++ tail))) = true := by
  rw [versionBody]
  refine List.any_eq_true.mpr
    ⟨(A, '.' :: (B ++ '.' :: (C ++ tail))), prefixSplits_mem _ hA hA2, ?_⟩
  simp only
  rw [Bool.and_eq_true_iff]
  refine ⟨rfl, ?_⟩
  refine List.any_eq_true.mpr
    ⟨(B, '.' :: (C ++ tail)), prefixSplits_mem _ hB hB2, ?_⟩
  simp only
  rw [Bool.and_eq_true_iff]
  refine ⟨rfl, ?_⟩
  refine List.any_eq_true.mpr ⟨(C, tail), prefixSplits_mem _ hC hC2, ?_⟩
  exact ht

/-- The version-group body accepts every wellformed buildless version
string. -/
theorem versionBody_verString {v : SemVer} (hwf : verWF v = true)
    (hb : v.build = []) : versionBody (verString v) = true := by
  have hpre : ∀ id ∈ v.pre, prWF id = true := by
    simp only [verWF, Bool.and_eq_true_iff] at hwf
    exact all_mem hwf.2
  have hvs := verString_shape hb
  obtain ⟨M, m, p, pre, bld⟩ := v
  rw [hvs]
  cases pre with
  | nil =>
    exact versionBody_parts _ _ _ _ (natDec_ne_nil M) (natDec_all_digit M)
      (natDec_ne_nil m) (natDec_all_digit m) (natDec_ne_nil p) (natDec_all_digit p) rfl
  | cons i irest =>
    exact versionBody_parts _ _ _ _ (natDec_ne_nil M) (natDec_all_digit M)
      (natDec_ne_nil m) (natDec_all_digit m) (natDec_ne_nil p) (natDec_all_digit p)
      (versionTailOk_join hpre)

theorem getLast?_of_validName {name : List Char} (h : validName name = true) :
    ∃ c, name.getLast? = some c ∧ alnumChar c = true := by
  simp only [validName, Bool.and_eq_true_iff] at h
  obtain ⟨⟨⟨hne, hall⟩, _⟩, hlast⟩ := h
  have hne2 : name ≠ [] := by simpa [List.isEmpty_iff] using hne
  rcases List.eq_nil_or_concat name with rfl | ⟨L, c, hcat⟩
  · exact absurd rfl hne2
  · rw [List.concat_eq_append] at hcat
    subst hcat
    refine ⟨c, List.getLast?_concat L, ?_⟩
    have hmem : c ∈ L ++ [c] := List.mem_append.mpr (Or.inr (List.mem_cons_self c []))
    have hnc : nameChar c = true := all_mem hall c hmem
    have hcd : c ≠ '-' := by
      intro he
      rw [List.getLast?_concat L, he] at hlast
      simp at hlast
    exact alnum_of_nameChar_ne_dash hnc hcd

theorem validName_ne_nil {name : List Char} (h : validName name = true) : name ≠ [] := by
  simp only [validName, Bool.and_eq_true_iff] at h
  simpa [List.isEmpty_iff] using h.1.1.1

/-- The Name candidate of exactly the descriptor-name length succeeds. -/
theorem candOk_target {name vs : List Char} (hname : validName name = true)
    (hvb : versionBody vs = true) :
    candOk (name ++ '-' :: 'v' :: vs) name.length = some (name, vs) := by
  obtain ⟨c, hl, ha⟩ := getLast?_of_validName hname
  simp only [candOk, List.take_left', List.drop_left', hl, Option.elim, ha, if_true]
  simp [hvb]

/-- A candidate whose following character is not the literal hyphen
fails. -/
theorem candOk_none_of_head {s : List Char} {len1 : Nat}
    (h : ∀ c, (s.drop len1).head? = some c → c ≠ '-') : candOk s len1 = none := by
  rw [candOk]
  cases hd : s.drop len1 with
  | nil => simp [hd]
  | cons c rest =>
    cases rest with
    | nil => simp [hd]
    | cons c2 rest2 =>
      have hc : c ≠ '-' := h c (by rw [hd]; rfl)
      simp [hd, hc]

/-- Greedy descent: when every longer candidate fails and the target
candidate succeeds, the search returns the target. -/
theorem matchNameVer_down {s : List Char} {target : Nat} {r : List Char × List Char}
    (htpos : 0 < target) (hsucc : candOk s target = some r) :
    ∀ k, (∀ j, target < j → j ≤ target + k → candOk s j = none) →
      matchNameVer s (target + k) = some r := by
  intro k
  induction k with
  | zero =>
    intro _
    rw [Nat.add_zero]
    cases target with
    | zero => omega
    | succ t =>
      rw [matchNameVer, hsucc]
  | succ k ih =>
    intro hfail
    have he : target + (k + 1) = (target + k) + 1 := rfl
    rw [he, matchNameVer, hfail (target + k + 1) (by omega) (by omega)]
    exact ih (fun j h1 h2 => hfail j h1 (by omega))

/-- The maximal name-character run of the string after the kind part:
the name, the hyphen, the v, and the leading digits of the version. -/
theorem takeWhile_nameRun (name A tail : List Char) (hname : name.all nameChar = true)
    (hA : A.all isDigitC = true) :
    (name ++ '-' :: 'v' :: (A ++ '.' :: tail)).takeWhile nameChar =
      name ++ '-' :: 'v' :: A := by
  rw [List.takeWhile_append_of_pos (all_mem hname)]
  have h1 : nameChar '-' = true := by decide
  have h2 : nameChar 'v' = true := by decide
  have h3 : nameChar '.' = false := by decide
  simp only [List.takeWhile_cons, h1, h2, if_true]
  rw [List.takeWhile_append_of_pos (fun c hc => nameChar_of_digit (all_mem hA c hc))]
  simp [List.takeWhile_cons, h3]

/-- Every candidate longer than the descriptor name fails: it would have
to be followed by a hyphen, but what follows is the v marker, a version
digit, or the first dot of the version. -/
theorem candFail_above (name A tail : List Char) (hA : A.all isDigitC = true) :
    ∀ j, name.length < j → j ≤ name.length + 2 + A.length →
      candOk (name ++ '-' :: 'v' :: (A ++ '.' :: tail)) j = none := by
  intro j h1 h2
  obtain ⟨i, rfl⟩ : ∃ i, j = name.length + i := ⟨j - name.length, by omega⟩
  refine candOk_none_of_head ?_
  intro c hc
  rw [drop_app_add] at hc
  cases i with
  | zero => omega
  | succ i0 =>
    cases i0 with
    | zero =>
      simp only [List.drop_succ_cons, List.drop_zero, List.head?_cons,
        Option.some.injEq] at hc
      subst hc
      decide
    | succ i' =>
      simp only [List.drop_succ_cons] at hc
      have hle : i' ≤ A.length := by omega
      rw [drop_app_le A _ i' hle] at hc
      cases hda : A.drop i' with
      | nil =>
        rw [hda] at hc
        simp only [List.nil_append, List.head?_cons, Option.some.injEq] at hc
        subst hc
        decide
      | cons d ds =>
        rw [hda] at hc
        rw [head?_app_left _ (by simp)] at hc
        have hdm : c ∈ A := by
          have hmem := head?_mem hc
          rw [← hda] at hmem
          exact List.drop_subset _ _ hmem
        exact digit_ne_dash (all_mem hA c hdm)

/-- The regexp match of a directory name built from a valid descriptor
recovers exactly the kind, the name, and the version string. -/
theorem pluginRegexpMatch_dir {kind name : List Char} {v : SemVer}
    (hkne : kind ≠ []) (hkl : kind.all isLowerC = true)
    (hname : validName name = true) (hwf : verWF v = true) (hb : v.build = []) :
    pluginRegexpMatch (kind ++ '-' :: (name ++ '-' :: 'v' :: verString v)) =
      some (kind, name, verString v) := by
  have hkw : (kind ++ '-' :: (name ++ '-' :: 'v' :: verString v)).takeWhile isLowerC
      = kind := by
    rw [List.takeWhile_append_of_pos (all_mem hkl)]
    have : isLowerC '-' = false := by decide
    simp [List.takeWhile_cons, this]
  have hnall : name.all nameChar = true := by
    simp only [validName, Bool.and_eq_true_iff] at hname
    exact hname.1.1.2
  have hvs := verString_shape hb
  have hrun : (name ++ '-' :: 'v' :: verString v).takeWhile nameChar =
      name ++ '-' :: 'v' :: natDec v.major := by
    rw [hvs]
    exact takeWhile_nameRun name (natDec v.major) _ hnall (natDec_all_digit _)
  have htarget : candOk (name ++ '-' :: 'v' :: verString v) name.length =
      some (name, verString v) :=
    candOk_target hname (versionBody_verString hwf hb)
  have hmnv : matchNameVer (name ++ '-' :: 'v' :: verString v)
      (name.length + (2 + (natDec v.major).length)) = some (name, verString v) := by
    refine matchNameVer_down
      (List.length_pos.mpr (validName_ne_nil hname)) htarget _ ?_
    intro j hj1 hj2
    rw [hvs]
    have h2' : j ≤ name.length + 2 + (natDec v.major).length := by omega
    exact candFail_above name (natDec v.major) _ (natDec_all_digit _) j hj1 h2'
  rw [pluginRegexpMatch]
  simp only [hkw, List.drop_left']
  rw [if_neg (by simpa [List.isEmpty_iff] using hkne)]
  rw [if_pos trivial, hrun]
  have hlen : (name ++ '-' :: 'v' :: natDec v.major).length =
      name.length + (2 + (natDec v.major).length) := by
    simp [List.length_append]
    omega
  rw [hlen, hmnv]
  rfl

theorem dir_shape (name kind : List Char) (v : SemVer) (sz : Nat) :
    (PluginInfo.mk name kind (some v) sz).dir =
      kind ++ '-' :: (name ++ '-' :: 'v' :: verString v) := by
  simp [PluginInfo.dir]

theorem isPluginKind_facts {k : List Char} (h : isPluginKind k = true) :
    k ≠ [] ∧ k.all isLowerC = true := by
  simp only [isPluginKind, Bool.or_eq_true, beq_iff_eq] at h
  rcases h with (h | h) | h <;> subst h <;> exact ⟨by decide, by decide⟩

/-- C2: for every descriptor whose kind is one of analyzer, language,
resource, whose name is a nonempty string of alphanumerics and hyphens
with no hyphen at either boundary, and whose version is a valid
semantic version (major.minor.patch with optional prerelease, as the
program can represent it), parsing the directory name produced for the
descriptor yields back exactly the descriptor. -/
theorem c2_parse_dir_roundtrip (kind name : List Char) (v : SemVer) (sz : Nat)
    (hk : isPluginKind kind = true) (hn : validName name = true)
    (hwf : verWF v = true) (hb : v.build = []) :
    tryPlugin (PluginInfo.mk name kind (some v) sz).dir true =
      some (kind, name, v) := by
  obtain ⟨hkne, hkl⟩ := isPluginKind_facts hk
  rw [dir_shape, tryPlugin]
  simp only [Bool.not_true, Bool.false_eq_true, if_false,
    pluginRegexpMatch_dir hkne hkl hn hwf hb, if_pos hk,
    parseTolerant_verString hwf hb]
  rw [if_neg (validName_ne_nil hn)]

/-- Witness for C2 at a concrete descriptor. -/
theorem c2_parse_dir_roundtrip_witness :
    isPluginKind ("resource".toList) = true ∧ validName ("aws".toList) = true ∧
      verWF ⟨1, 5, 0, [], []⟩ = true ∧
      tryPlugin (PluginInfo.mk "aws".toList "resource".toList
          (some ⟨1, 5, 0, [], []⟩) 0).dir true =
        some ("resource".toList, "aws".toList, ⟨1, 5, 0, [], []⟩) :=
  ⟨by decide, by decide, by decide,
    c2_parse_dir_roundtrip _ _ _ _ (by decide) (by decide) (by decide) rfl⟩

/-! ## C3: the search-path override -/

/-- C3: whenever the unversioned executable name for the kind and name
is found on the search path, resolution returns that path immediately,
for every cache state and every requested version: the cache is never
consulted and no version comparison happens. -/
theorem c3_path_override (w : World) (lookPath : List Char → Option (List Char))
    (kind name : List Char) (version : Option SemVer) (p : List Char)
    (hlp : lookPath (filePref kind name) = some p) :
    getPluginPath w lookPath kind name version = .ok ([], p) := by
  rw [getPluginPath, hlp]

/-- Witness for C3 at a concrete lookup. -/
theorem c3_path_override_witness :
    getPluginPath ⟨true, "/h".toList, some [.dir "resource-aws-v9.9.9".toList []], false⟩
        (fun s => if s == filePref "resource".toList "aws".toList
          then some "/usr/bin/pulumi-resource-aws".toList else none)
        "resource".toList "aws".toList (some ⟨1, 0, 0, [], []⟩) =
      .ok ([], "/usr/bin/pulumi-resource-aws".toList) :=
  c3_path_override _ _ _ _ _ _ (by decide)

/-! ## C8: the size probe tolerates a vanished directory -/

/-- C8: probing a path that does not exist reports size zero and no
error, and attaching metadata when the directory was present at stat
time but gone at probe time succeeds with size zero rather than
failing. -/
theorem c8_size_probe_missing :
    getPluginSize none = .ok 0 ∧
      ∀ (info : PluginInfo) (nd : FsNode),
        setFileMetadata info (some nd) none =
          .ok ⟨info.name, info.kind, info.version, 0⟩ :=
  ⟨rfl, fun _ _ => rfl⟩

/-! ## C7: unsupported archive entries abort the install -/

theorem installEntries_append_other (d : List Char) (nm : List Char) (tf : Nat)
    (rest : List TarEntry) (pre : List TarEntry) :
    ∀ st, (∀ e ∈ pre, e.isOther = false) →
      installEntries d (pre ++ .other nm tf :: rest) st =
        ((installEntries d pre st).1, some (unexpectedMsg nm tf)) := by
  induction pre with
  | nil => intro st _; rfl
  | cons e pre ih =>
    intro st hp
    cases e with
    | dir nm2 =>
      simp only [List.cons_append, installEntries]
      exact ih _ (fun e he => hp e (List.mem_cons_of_mem _ he))
    | reg nm2 mode content =>
      simp only [List.cons_append, installEntries]
      exact ih _ (fun e he => hp e (List.mem_cons_of_mem _ he))
    | other nm2 tf2 =>
      have := hp _ (List.mem_cons_self _ _)
      simp [TarEntry.isOther] at this

/-- C7: an archive whose entries are directories and regular files up to
some entry of any other type makes Install abort exactly at that entry,
with the unsupported-entry error naming it, and the disk state is the
one produced by the earlier entries: nothing already written is rolled
back, and nothing after the bad entry is processed. -/
theorem c7_install_abort (pluginDir : List Char) (pre : List TarEntry)
    (nm : List Char) (tf : Nat) (rest : List TarEntry) (st : DiskState)
    (hpre : ∀ e ∈ pre, e.isOther = false) :
    install pluginDir (pre ++ .other nm tf :: rest) st =
      ((install pluginDir pre st).1, some (unexpectedMsg nm tf)) := by
  rw [install, install]
  exact installEntries_append_other pluginDir nm tf rest pre _ hpre

/-- Witness for C7 at a concrete archive. -/
theorem c7_install_abort_witness :
    install "/h/resource-aws-v1.0.0".toList
        [.dir "bin".toList, .reg "bin/x".toList 493 [1, 2, 3],
          .other "lnk".toList 50, .reg "y".toList 420 [9]] ⟨[], []⟩ =
      ((install "/h/resource-aws-v1.0.0".toList
          [.dir "bin".toList, .reg "bin/x".toList 493 [1, 2, 3]] ⟨[], []⟩).1,
        some (unexpectedMsg "lnk".toList 50)) :=
  c7_install_abort _ [.dir "bin".toList, .reg "bin/x".toList 493 [1, 2, 3]] _ _ _ _
    (by decide)

/-! ## C5: Exists is a stat-based presence check, blind to the node type -/

/-- C5 counterexample: a regular FILE named like the plugin directory
makes HasPlugin report true even though nothing exists as a directory
there, refuting the claim that Exists is true only if the directory
exists as a directory. -/
theorem c5_exists_counterexample :
    hasPlugin ⟨true, "/h".toList, some [.file "resource-aws-v1.0.0".toList 7], false⟩
        ⟨"aws".toList, "resource".toList, some ⟨1, 0, 0, [], []⟩, 0⟩ = true ∧
      isDirAt ⟨true, "/h".toList, some [.file "resource-aws-v1.0.0".toList 7], false⟩
        (PluginInfo.dir ⟨"aws".toList, "resource".toList, some ⟨1, 0, 0, [], []⟩, 0⟩)
        = false := by
  constructor <;> decide

/-- C5 amended: HasPlugin is a pure presence check that never runs the
scan: it is true exactly when the cache root resolves and some child of
the cache root, of any file type, bears the name DirectoryName(d); in
particular it is false whenever the root cannot be resolved or is
absent. -/
theorem c5_exists_presence (w : World) (p : PluginInfo) :
    hasPlugin w p = true ↔
      w.userOk = true ∧ ∃ nd ∈ w.pluginRoot.getD [], nd.nameOf = p.dir := by
  rw [hasPlugin, dirPathE, getPluginDir]
  cases hu : w.userOk with
  | false => simp
  | true =>
    simp only [if_true, true_and]
    cases hr : w.pluginRoot with
    | none => simp [statW, hr]
    | some children =>
      simp only [statW, hr, Option.getD_some, List.find?_isSome]
      constructor
      · rintro ⟨nd, hnd, hp⟩
        refine ⟨nd, hnd, ?_⟩
        rw [beq_iff_eq] at hp
        have hc := List.append_cancel_left hp
        injection hc
      · rintro ⟨nd, hnd, heq⟩
        exact ⟨nd, hnd, by rw [beq_iff_eq, heq]⟩

/-! ## C4: malformed entries are skipped silently -/

/-- An entry that is not a directory, or whose name fails the regexp,
or whose kind or version capture is invalid, is rejected by tryPlugin. -/
theorem tryPlugin_none_of_bad {nm : List Char} {isDir : Bool}
    (h : isDir = false ∨ pluginRegexpMatch nm = none ∨
      (∃ k n vs, pluginRegexpMatch nm = some (k, n, vs) ∧
        (isPluginKind k = false ∨ parseTolerant vs = none))) :
    tryPlugin nm isDir = none := by
  rcases h with rfl | h | ⟨k, n, vs, hm, hbad⟩
  · rfl
  · cases isDir with
    | false => rfl
    | true => simp [tryPlugin, h]
  · cases isDir with
    | false => rfl
    | true =>
      rcases hbad with hk | hv
      · simp [tryPlugin, hm, hk]
      · rw [tryPlugin, hm]
        simp only [Bool.not_true, Bool.false_eq_true, if_false, hv]
        cases hik : isPluginKind k <;> simp

theorem getPluginsFrom_skip {nd : FsNode}
    (ht : tryPlugin nd.nameOf nd.isDirB = none) (es1 es2 : List FsNode) :
    getPluginsFrom (es1 ++ nd :: es2) = getPluginsFrom (es1 ++ es2) := by
  induction es1 with
  | nil => simp only [List.nil_append, getPluginsFrom, ht]
  | cons e es ih => simp only [List.cons_append, getPluginsFrom, List.append_eq, ih]

/-- C4: the scan never returns a record for a child entry that is not a
directory, whose name does not match the plugin pattern (including a
missing v-version suffix), whose kind is unknown, or whose version
fails to parse: removing such an entry from the cache-root listing
leaves the result of the scan, including its error behaviour,
unchanged, so the entry is skipped silently. -/
theorem c4_scan_skips_bad (uo : Bool) (pdp : List Char) (win : Bool)
    (es1 es2 : List FsNode) (nd : FsNode)
    (hbad : nd.isDirB = false ∨ pluginRegexpMatch nd.nameOf = none ∨
      (∃ k n vs, pluginRegexpMatch nd.nameOf = some (k, n, vs) ∧
        (isPluginKind k = false ∨ parseTolerant vs = none))) :
    getPlugins ⟨uo, pdp, some (es1 ++ nd :: es2), win⟩ =
      getPlugins ⟨uo, pdp, some (es1 ++ es2), win⟩ := by
  rw [getPlugins, getPlugins]
  cases uo with
  | false => rfl
  | true =>
    simp only
    exact getPluginsFrom_skip (tryPlugin_none_of_bad hbad) es1 es2

/-- Witness for C4: a plain file and an unknown-kind directory in the
listing leave the scan result unchanged. -/
theorem c4_scan_skips_bad_witness :
    getPlugins ⟨true, "/h".toList,
        some ([.dir "resource-aws-v1.0.0".toList []] ++
          FsNode.file "junk".toList 3 :: []), false⟩ =
      getPlugins ⟨true, "/h".toList,
        some ([.dir "resource-aws-v1.0.0".toList []] ++ []), false⟩ :=
  c4_scan_skips_bad true "/h".toList false _ _ _ (Or.inl rfl)

/-! ## Inversion lemmas about accepted entries -/

theorem tryPlugin_some_isDir {nm : List Char} {isDir : Bool}
    {x : List Char × List Char × SemVer}
    (h : tryPlugin nm isDir = some x) : isDir = true := by
  cases isDir with
  | false => exact absurd h (by simp [tryPlugin])
  | true => rfl

theorem tryPlugin_some_inv {nm : List Char} {isDir : Bool} {k n : List Char}
    {ver : SemVer} (h : tryPlugin nm isDir = some (k, n, ver)) :
    isPluginKind k = true ∧ n ≠ [] ∧
      ∃ vs, pluginRegexpMatch nm = some (k, n, vs) ∧ parseTolerant vs = some ver := by
  cases isDir with
  | false => exact absurd h (by simp [tryPlugin])
  | true =>
    cases hm : pluginRegexpMatch nm with
    | none => rw [tryPlugin] at h; simp [hm] at h
    | some trip =>
      obtain ⟨k0, n0, vs⟩ := trip
      rw [tryPlugin] at h
      simp only [Bool.not_true, Bool.false_eq_true, if_false, hm] at h
      cases hik : isPluginKind k0 with
      | false =>
        simp only [hik, Bool.false_eq_true, if_false] at h
        exact absurd h (by simp)
      | true =>
        simp only [hik, if_true] at h
        cases hv : parseTolerant vs with
        | none =>
          simp only [hv] at h
          exact absurd h (by simp)
        | some ver0 =>
          simp only [hv] at h
          by_cases hn : n0 = []
          · simp only [if_pos hn] at h
            exact absurd h (by simp)
          · simp only [if_neg hn, Option.some.injEq, Prod.mk.injEq] at h
            obtain ⟨hk, hn2, hv2⟩ := h
            subst hk
            subst hn2
            subst hv2
            exact ⟨hik, hn, vs, rfl, hv⟩

theorem setFileMetadata_dir {info : PluginInfo} {nd : FsNode} (h : nd.isDirB = true) :
    ∃ sz, setFileMetadata info (some nd) (some nd) =
      .ok ⟨info.name, info.kind, info.version, sz⟩ := by
  cases nd with
  | file n s => simp [FsNode.isDirB] at h
  | dir n ch => exact ⟨nodesSize ch, rfl⟩

/-- Every record the scan loop emits comes from an entry that tryPlugin
accepted with exactly the record's kind, name and version. -/
theorem getPluginsFrom_shape : ∀ {children : List FsNode} {ps : List PluginInfo},
    getPluginsFrom children = .ok ps →
    ∀ p ∈ ps, ∃ nd ∈ children, ∃ ver,
      p.version = some ver ∧
      tryPlugin nd.nameOf nd.isDirB = some (p.kind, p.name, ver) := by
  intro children
  induction children with
  | nil =>
    intro ps h p hp
    rw [getPluginsFrom] at h
    injection h with h
    subst h
    simp at hp
  | cons nd rest ih =>
    intro ps h p hp
    rw [getPluginsFrom] at h
    cases htp : tryPlugin nd.nameOf nd.isDirB with
    | none =>
      rw [htp] at h
      obtain ⟨nd2, hnd2, hx⟩ := ih h p hp
      exact ⟨nd2, List.mem_cons_of_mem _ hnd2, hx⟩
    | some trip =>
      obtain ⟨k, n, ver⟩ := trip
      obtain ⟨sz, hsm⟩ := @setFileMetadata_dir ⟨n, k, some ver, 0⟩ nd
        (tryPlugin_some_isDir htp)
      simp only [htp, hsm] at h
      cases hrest : getPluginsFrom rest with
      | error e => rw [hrest] at h; exact absurd h (by simp)
      | ok ps2 =>
        rw [hrest] at h
        simp only [Except.ok.injEq] at h
        subst h
        rcases List.mem_cons.mp hp with rfl | hp2
        · exact ⟨nd, List.mem_cons_self _ _, ver, rfl, htp⟩
        · obtain ⟨nd2, hnd2, hx⟩ := ih hrest p hp2
          exact ⟨nd2, List.mem_cons_of_mem _ hnd2, hx⟩

theorem getPlugins_ok_userOk {w : World} {ps : List PluginInfo}
    (h : getPlugins w = .ok ps) : w.userOk = true := by
  rw [getPlugins, getPluginDir] at h
  cases hu : w.userOk with
  | false => rw [hu] at h; simp at h
  | true => rfl

/-- Every record returned by GetPlugins comes from an accepted entry. -/
theorem getPlugins_shape {w : World} {ps : List PluginInfo}
    (h : getPlugins w = .ok ps) :
    ∀ p ∈ ps, ∃ nm isDir ver, p.version = some ver ∧
      tryPlugin nm isDir = some (p.kind, p.name, ver) := by
  intro p hp
  rw [getPlugins, getPluginDir, getPlugins_ok_userOk h] at h
  simp only [if_true] at h
  cases hr : w.pluginRoot with
  | none =>
    rw [hr] at h
    injection h with h
    subst h
    simp at hp
  | some children =>
    rw [hr] at h
    obtain ⟨nd, _, ver, hver, htp⟩ := getPluginsFrom_shape h p hp
    exact ⟨nd.nameOf, nd.isDirB, ver, hver, htp⟩

/-! ## C9: what the scanner guarantees about emitted records -/

theorem take_app_le {α : Type} (A : List α) (R : List α) :
    ∀ i, i ≤ A.length → (A ++ R).take i = A.take i := by
  induction A with
  | nil =>
    intro i hi
    have : i = 0 := by simpa using hi
    subst this
    simp
  | cons a rest ih =>
    intro i hi
    cases i with
    | zero => simp
    | succ i => simpa using ih i (by simpa using hi)

theorem take_all_of_le_run {p : Char → Bool} {s : List Char} {j : Nat}
    (hj : j ≤ (s.takeWhile p).length) : (s.take j).all p = true := by
  have h1 : s.take j = (s.takeWhile p).take j := by
    conv_lhs => rw [← List.takeWhile_append_dropWhile p s]
    exact take_app_le _ _ j hj
  rw [h1]
  exact List.all_eq_true.mpr
    (fun c hc => List.mem_takeWhile_imp (List.take_subset _ _ hc))

theorem matchNameVer_inv {s : List Char} {r : List Char × List Char} :
    ∀ {l : Nat}, matchNameVer s l = some r →
      ∃ j, 0 < j ∧ j ≤ l ∧ candOk s j = some r := by
  intro l
  induction l with
  | zero => intro h; exact absurd h (by simp [matchNameVer])
  | succ l ih =>
    intro h
    rw [matchNameVer] at h
    cases hc : candOk s (l + 1) with
    | some r2 =>
      rw [hc] at h
      injection h with h
      subst h
      exact ⟨l + 1, by omega, le_rfl, hc⟩
    | none =>
      rw [hc] at h
      obtain ⟨j, hj0, hjl, hcand⟩ := ih h
      exact ⟨j, hj0, by omega, hcand⟩

theorem candOk_inv {s : List Char} {j : Nat} {nm vs : List Char}
    (h : candOk s j = some (nm, vs)) :
    nm = s.take j ∧ ∃ c, nm.getLast? = some c ∧ alnumChar c = true := by
  rw [candOk] at h
  cases hg : (s.take j).getLast? with
  | none => rw [hg] at h; simp [Option.elim] at h
  | some c =>
    rw [hg] at h
    simp only [Option.elim] at h
    cases ha : alnumChar c with
    | false =>
      simp only [ha, Bool.false_eq_true, if_false] at h
      exact absurd h (by simp)
    | true =>
      simp only [ha, if_true] at h
      have hnm : nm = s.take j := by
        cases hd : s.drop j with
        | nil => simp only [hd] at h; exact absurd h (by simp)
        | cons c1 t1 =>
          cases t1 with
          | nil => simp only [hd] at h; exact absurd h (by simp)
          | cons c2 rest =>
            simp only [hd] at h
            by_cases hcond : c1 = '-' ∧ c2 = 'v' ∧ versionBody rest = true
            · rw [if_pos hcond] at h
              simp only [Option.some.injEq, Prod.mk.injEq] at h
              exact h.1.symm
            · rw [if_neg hcond] at h
              exact absurd h (by simp)
      refine ⟨hnm, c, ?_, ha⟩
      rw [hnm]
      exact hg

/-- What a successful regexp match guarantees about the Name capture:
nonempty, over the name alphabet, and not ending in a hyphen.  A
leading hyphen is NOT excluded. -/
theorem pluginRegexpMatch_inv {s : List Char} {k nm vs : List Char}
    (h : pluginRegexpMatch s = some (k, nm, vs)) :
    nm ≠ [] ∧ nm.all nameChar = true ∧ nm.getLast? ≠ some '-' := by
  rw [pluginRegexpMatch] at h
  by_cases he : (s.takeWhile isLowerC).isEmpty = true
  · rw [if_pos he] at h
    exact absurd h (by simp)
  · rw [if_neg he] at h
    cases hd : s.drop (s.takeWhile isLowerC).length with
    | nil => rw [hd] at h; exact absurd h (by simp)
    | cons c rest =>
      simp only [hd] at h
      by_cases hc : c = '-'
      · rw [if_pos hc] at h
        cases hmv : matchNameVer rest (rest.takeWhile nameChar).length with
        | none => rw [hmv] at h; exact absurd h (by simp)
        | some pr =>
          rw [hmv] at h
          simp only [Option.map_some', Option.some.injEq, Prod.mk.injEq] at h
          obtain ⟨-, h1, h2⟩ := h
          obtain ⟨nm2, vs2⟩ := pr
          simp only at h1 h2
          subst h1
          subst h2
          obtain ⟨j, hj0, hjl, hcand⟩ := matchNameVer_inv hmv
          obtain ⟨htake, c2, hlast, halnum⟩ := candOk_inv hcand
          refine ⟨?_, ?_, ?_⟩
          · intro hnil
            rw [hnil] at hlast
            exact Option.noConfusion hlast
          · rw [htake]
            exact take_all_of_le_run hjl
          · rw [hlast]
            intro hcontra
            have : c2 = '-' := by injection hcontra
            exact alnum_ne_dash halnum this
      · rw [if_neg hc] at h
        exact absurd h (by simp)

/-- C9 counterexample: the directory resource--aws-v1.0.0 is scanned
into a record whose name is -aws, which begins with a hyphen: the
claimed no-hyphen-at-the-first-position invariant fails. -/
theorem c9_invariant_counterexample :
    getPlugins ⟨true, "/h".toList, some [.dir "resource--aws-v1.0.0".toList []], false⟩ =
      .ok [⟨"-aws".toList, "resource".toList, some ⟨1, 0, 0, [], []⟩, 0⟩] ∧
    ("-aws".toList).head? = some '-' := by
  constructor
  · rfl
  · rfl

/-- C9 amended: every record returned by the scan has a kind from the
enumerated set, a nonempty name drawn from alphanumerics and hyphens
with no hyphen at the LAST position (the regexp does not rule out a
hyphen at the first position), and a version that was obtained by a
successful semantic-version parse of the directory suffix. -/
theorem c9_record_invariant (w : World) (ps : List PluginInfo)
    (hps : getPlugins w = .ok ps) :
    ∀ p ∈ ps, isPluginKind p.kind = true ∧ p.name ≠ [] ∧
      p.name.all nameChar = true ∧ p.name.getLast? ≠ some '-' ∧
      ∃ ver vs, p.version = some ver ∧ parseTolerant vs = some ver := by
  intro p hp
  obtain ⟨nm, isDir, ver, hver, htp⟩ := getPlugins_shape hps p hp
  obtain ⟨hkind, hnne, vs, hmatch, hparse⟩ := tryPlugin_some_inv htp
  obtain ⟨hne2, hall, hlast⟩ := pluginRegexpMatch_inv hmatch
  exact ⟨hkind, hne2, hall, hlast, ver, vs, hver, hparse⟩

/-- Witness for the amended C9 at the concrete scanned record. -/
theorem c9_record_invariant_witness :
    isPluginKind "resource".toList = true ∧ "-aws".toList ≠ [] ∧
      ("-aws".toList).all nameChar = true ∧ ("-aws".toList).getLast? ≠ some '-' ∧
      ∃ ver vs, (some ⟨1, 0, 0, [], []⟩ : Option SemVer) = some ver ∧
        parseTolerant vs = some ver :=
  c9_record_invariant
    ⟨true, "/h".toList, some [.dir "resource--aws-v1.0.0".toList []], false⟩
    [⟨"-aws".toList, "resource".toList, some ⟨1, 0, 0, [], []⟩, 0⟩] rfl
    ⟨"-aws".toList, "resource".toList, some ⟨1, 0, 0, [], []⟩, 0⟩
    (List.mem_cons_self _ _)

/-! ## C10: scanned records always carry a version -/

/-- The two loop-body variants agree on a record that carries a version:
under the aliasing the pruned arm reads the current record's version, so
its value is all that matters. -/
theorem loopAdopt_eq_scanned_step (kind name : List Char) (version : Option SemVer)
    (matched : Bool) (p : PluginInfo) (hp : p.version.isSome = true) :
    loopAdopt kind name version matched p =
      loopAdoptScanned kind name version matched p := by
  obtain ⟨pv, hpv⟩ := Option.isSome_iff_exists.mp hp
  have hco : rule2Cond p p = rule2CondScanned p p := by
    rw [rule2Cond, rule2CondScanned]
    simp only [hpv]
  simp only [loopAdopt, loopAdoptScanned, hco]

theorem foldl_loopAdopt_eq (kind name : List Char) (version : Option SemVer) :
    ∀ (ps : List PluginInfo) (b : Bool),
      (∀ p ∈ ps, p.version.isSome = true) →
      ps.foldl (loopAdopt kind name version) b =
        ps.foldl (loopAdoptScanned kind name version) b := by
  intro ps
  induction ps with
  | nil => intro b _; rfl
  | cons p rest ih =>
    intro b hps
    have hp := hps p (List.mem_cons_self p rest)
    rw [List.foldl_cons, List.foldl_cons,
      loopAdopt_eq_scanned_step kind name version b p hp]
    exact ih _ (fun q hq => hps q (List.mem_cons_of_mem _ hq))

/-- C10: every record produced by the scan has a present version, since
the parser rejects directory names without a parseable version.  As a
consequence two guards are dead for scanned records: the no-version arm
of the second adoption rule (which under the aliasing reads the current
record's version) never fires, so pruning it leaves the adoption fold
unchanged from every start state; and the record-side nil guard of the
HasPluginGTE comparison never matters, so dropping it — with the then
unguarded dereference modelled by an arbitrary default — leaves the
comparison unchanged on scanned records. -/
theorem c10_scanned_version_invariant (w : World) (ps : List PluginInfo)
    (hps : getPlugins w = .ok ps) :
    (∀ p ∈ ps, p.version.isSome = true) ∧
      (∀ kind name version b,
        ps.foldl (loopAdopt kind name version) b =
          ps.foldl (loopAdoptScanned kind name version) b) ∧
      ∀ d qv, ∀ q ∈ ps,
        versionGTEOpt q.version qv = versionGTEOptPruned d q.version qv := by
  have hv : ∀ p ∈ ps, p.version.isSome = true := by
    intro p hp
    obtain ⟨nm, isDir, ver, hver, -⟩ := getPlugins_shape hps p hp
    rw [hver]
    rfl
  refine ⟨hv, fun kind name version b => foldl_loopAdopt_eq kind name version ps b hv, ?_⟩
  intro d qv q hq
  obtain ⟨v, hvq⟩ := Option.isSome_iff_exists.mp (hv q hq)
  cases qv with
  | none => rw [hvq]; rfl
  | some pv => rw [hvq]; rfl

/-- Witness for C10 at a concrete world, fully instantiated. -/
theorem c10_scanned_version_invariant_witness :
    ((⟨"aws".toList, "resource".toList, some ⟨1, 0, 0, [], []⟩, 0⟩ : PluginInfo).version.isSome
        = true) ∧
      ([(⟨"aws".toList, "resource".toList, some ⟨1, 0, 0, [], []⟩, 0⟩ : PluginInfo)].foldl
          (loopAdopt "resource".toList "aws".toList (some ⟨1, 0, 0, [], []⟩)) false =
        [(⟨"aws".toList, "resource".toList, some ⟨1, 0, 0, [], []⟩, 0⟩ : PluginInfo)].foldl
          (loopAdoptScanned "resource".toList "aws".toList (some ⟨1, 0, 0, [], []⟩)) false) ∧
      versionGTEOpt (some ⟨1, 0, 0, [], []⟩) (some ⟨1, 0, 0, [], []⟩) =
        versionGTEOptPruned ⟨9, 9, 9, [], []⟩ (some ⟨1, 0, 0, [], []⟩)
          (some ⟨1, 0, 0, [], []⟩) := by
  obtain ⟨h1, h2, h3⟩ := c10_scanned_version_invariant
    ⟨true, "/h".toList, some [.dir "resource-aws-v1.0.0".toList []], false⟩
    [⟨"aws".toList, "resource".toList, some ⟨1, 0, 0, [], []⟩, 0⟩] rfl
  exact ⟨h1 _ (List.mem_cons_self _ _),
    h2 "resource".toList "aws".toList (some ⟨1, 0, 0, [], []⟩) false,
    h3 ⟨9, 9, 9, [], []⟩ (some ⟨1, 0, 0, [], []⟩) _ (List.mem_cons_self _ _)⟩

/-! ## C6: the at-least check -/

/-- C6: for a descriptor with a version, the at-least check succeeds
exactly when the exact presence check does, or some scanned record
shares the kind and name and carries a version at least the requested
one; the nil-version guard means a record without a version can never
satisfy the scan branch, which the existential on the record's version
captures. -/
theorem c6_hasPluginGTE_iff (w : World) (p : PluginInfo) (v : SemVer)
    (ps : List PluginInfo) (hv : p.version = some v) (hps : getPlugins w = .ok ps) :
    (hasPluginGTE w p = .ok true ↔
      hasPlugin w p = true ∨ ∃ q ∈ ps, q.kind = p.kind ∧ q.name = p.name ∧
        ∃ qv, q.version = some qv ∧ verGTE qv v = true) := by
  rw [hasPluginGTE]
  cases hhp : hasPlugin w p with
  | true => simp
  | false =>
    simp only [Bool.false_eq_true, if_false, hps, Except.ok.injEq]
    rw [List.any_eq_true]
    constructor
    · rintro ⟨q, hq, hcond⟩
      simp only [Bool.and_eq_true, beq_iff_eq] at hcond
      obtain ⟨⟨hqn, hqk⟩, hgte⟩ := hcond
      rw [hv] at hgte
      cases hqv : q.version with
      | none =>
        rw [hqv] at hgte
        exact absurd hgte (by simp [versionGTEOpt])
      | some qv =>
        rw [hqv] at hgte
        exact Or.inr ⟨q, hq, hqk, hqn, qv, hqv, hgte⟩
    · rintro (habs | ⟨q, hq, hqk, hqn, qv, hqv, hgte⟩)
      · exact habs.elim
      · exact ⟨q, hq, by simp [hqn, hqk, versionGTEOpt, hqv, hv, hgte]⟩

/-- Witness for C6: version 2.5.0 installed satisfies the at-least-2.0.0
check. -/
theorem c6_hasPluginGTE_iff_witness :
    hasPluginGTE ⟨true, "/h".toList, some [.dir "resource-aws-v2.5.0".toList []], false⟩
        ⟨"aws".toList, "resource".toList, some ⟨2, 0, 0, [], []⟩, 0⟩ = .ok true :=
  (c6_hasPluginGTE_iff
      ⟨true, "/h".toList, some [.dir "resource-aws-v2.5.0".toList []], false⟩
      ⟨"aws".toList, "resource".toList, some ⟨2, 0, 0, [], []⟩, 0⟩ ⟨2, 0, 0, [], []⟩
      [⟨"aws".toList, "resource".toList, some ⟨2, 5, 0, [], []⟩, 0⟩] rfl rfl).mpr
    (Or.inr ⟨⟨"aws".toList, "resource".toList, some ⟨2, 5, 0, [], []⟩, 0⟩,
      List.mem_cons_self _ _, rfl, rfl, ⟨2, 5, 0, [], []⟩, rfl, by decide⟩)

/-! ## Ordering facts about Version.Compare

The properties needed from each comparison function: antisymmetric
flipping and two transitivity shapes. -/

structure CmpOK {α : Type} (f : α → α → Int) : Prop where
  flip : ∀ a b, f b a = -f a b
  le_trans : ∀ {a b c}, f a b ≤ 0 → f b c ≤ 0 → f a c ≤ 0
  lt_le : ∀ {a b c}, f a b < 0 → f b c ≤ 0 → f a c < 0

theorem CmpOK.le_lt {α : Type} {f : α → α → Int} (h : CmpOK f) {a b c : α}
    (h1 : f a b ≤ 0) (h2 : f b c < 0) : f a c < 0 := by
  by_contra hc
  push_neg at hc
  have hca : f c a ≤ 0 := by rw [h.flip]; omega
  have hcb : f c b ≤ 0 := h.le_trans hca h1
  rw [h.flip] at hcb
  omega

theorem CmpOK.zero_trans {α : Type} {f : α → α → Int} (h : CmpOK f) {a b c : α}
    (h1 : f a b = 0) (h2 : f b c = 0) : f a c = 0 := by
  have h3 : f a c ≤ 0 := h.le_trans (le_of_eq h1) (le_of_eq h2)
  have hcb : f c b ≤ 0 := by rw [h.flip]; omega
  have hba : f b a ≤ 0 := by rw [h.flip]; omega
  have h4 : f c a ≤ 0 := h.le_trans hcb hba
  rw [h.flip] at h4
  omega

theorem cmpC_flip {u v u2 v2 : Int} (hu : u2 = -u) (hv : v2 = -v) :
    cmpC u2 v2 = -cmpC u v := by
  unfold cmpC
  split_ifs <;> omega

theorem cmpC_le_trans_generic {u1 v1 u2 v2 u3 v3 : Int}
    (h1 : cmpC u1 v1 ≤ 0) (h2 : cmpC u2 v2 ≤ 0)
    (hs1 : u1 < 0 → u2 ≤ 0 → u3 < 0)
    (hs2 : u1 = 0 → u2 < 0 → u3 < 0)
    (hz : u1 = 0 → u2 = 0 → u3 = 0)
    (hv : v1 ≤ 0 → v2 ≤ 0 → v3 ≤ 0) :
    cmpC u3 v3 ≤ 0 := by
  unfold cmpC at h1 h2 ⊢
  by_cases e1 : u1 = 0
  · rw [if_neg (not_not_intro e1)] at h1
    by_cases e2 : u2 = 0
    · rw [if_neg (not_not_intro e2)] at h2
      rw [if_neg (not_not_intro (hz e1 e2))]
      exact hv h1 h2
    · have hu2 : u2 < 0 := by
        rcases lt_trichotomy u2 0 with h | h | h
        · exact h
        · exact absurd h e2
        · rw [if_pos (by omega)] at h2; omega
      have h3 := hs2 e1 hu2
      rw [if_pos (by omega)]
      omega
  · have hu1 : u1 < 0 := by
      rcases lt_trichotomy u1 0 with h | h | h
      · exact h
      · exact absurd h e1
      · rw [if_pos (by omega)] at h1; omega
    have hu2 : u2 ≤ 0 := by
      by_cases e2 : u2 = 0
      · omega
      · rw [if_pos e2] at h2; omega
    have h3 := hs1 hu1 hu2
    rw [if_pos (by omega)]
    omega

theorem cmpC_lt_le_generic {u1 v1 u2 v2 u3 v3 : Int}
    (h1 : cmpC u1 v1 < 0) (h2 : cmpC u2 v2 ≤ 0)
    (hs1 : u1 < 0 → u2 ≤ 0 → u3 < 0)
    (hs2 : u1 = 0 → u2 < 0 → u3 < 0)
    (hz : u1 = 0 → u2 = 0 → u3 = 0)
    (hv : v1 < 0 → v2 ≤ 0 → v3 < 0) :
    cmpC u3 v3 < 0 := by
  unfold cmpC at h1 h2 ⊢
  by_cases e1 : u1 = 0
  · rw [if_neg (not_not_intro e1)] at h1
    by_cases e2 : u2 = 0
    · rw [if_neg (not_not_intro e2)] at h2
      rw [if_neg (not_not_intro (hz e1 e2))]
      exact hv h1 h2
    · have hu2 : u2 < 0 := by
        rcases lt_trichotomy u2 0 with h | h | h
        · exact h
        · exact absurd h e2
        · rw [if_pos (by omega)] at h2; omega
      have h3 := hs2 e1 hu2
      rw [if_pos (by omega)]
      omega
  · have hu1 : u1 < 0 := by
      rcases lt_trichotomy u1 0 with h | h | h
      · exact h
      · exact absurd h e1
      · rw [if_pos (by omega)] at h1; omega
    have hu2 : u2 ≤ 0 := by
      by_cases e2 : u2 = 0
      · omega
      · rw [if_pos e2] at h2; omega
    have h3 := hs1 hu1 hu2
    rw [if_pos (by omega)]
    omega

theorem cmpNat_cmpOK : CmpOK cmpNat := by
  refine ⟨?_, ?_, ?_⟩
  · intro a b; unfold cmpNat; split_ifs <;> omega
  · intro a b c h1 h2; unfold cmpNat at * ; split_ifs at * <;> omega
  · intro a b c h1 h2; unfold cmpNat at * ; split_ifs at * <;> omega

theorem strCmp_cons (x y : Char) (xs ys : List Char) :
    strCmp (x :: xs) (y :: ys) = cmpC (cmpNat x.toNat y.toNat) (strCmp xs ys) := by
  simp only [strCmp, cmpC, cmpNat]
  split_ifs <;> first | rfl | omega

theorem strCmp_flip : ∀ a b : List Char, strCmp b a = -strCmp a b := by
  intro a
  induction a with
  | nil => intro b; cases b <;> simp [strCmp]
  | cons x xs ih =>
    intro b
    cases b with
    | nil => simp [strCmp]
    | cons y ys =>
      rw [strCmp_cons, strCmp_cons]
      exact cmpC_flip (cmpNat_cmpOK.flip x.toNat y.toNat) (ih ys)

theorem strCmp_le_trans : ∀ a b c : List Char,
    strCmp a b ≤ 0 → strCmp b c ≤ 0 → strCmp a c ≤ 0 := by
  intro a
  induction a with
  | nil =>
    intro b c _ _
    cases c <;> simp [strCmp]
  | cons x xs ih =>
    intro b c h1 h2
    cases b with
    | nil => simp [strCmp] at h1
    | cons y ys =>
      cases c with
      | nil => simp [strCmp] at h2
      | cons z zs =>
        rw [strCmp_cons] at h1 h2 ⊢
        exact cmpC_le_trans_generic h1 h2 cmpNat_cmpOK.lt_le
          (fun e h => cmpNat_cmpOK.le_lt (le_of_eq e) h)
          cmpNat_cmpOK.zero_trans (ih ys zs)

theorem strCmp_lt_le : ∀ a b c : List Char,
    strCmp a b < 0 → strCmp b c ≤ 0 → strCmp a c < 0 := by
  intro a
  induction a with
  | nil =>
    intro b c h1 h2
    cases b with
    | nil => simp [strCmp] at h1
    | cons y ys =>
      cases c with
      | nil => simp [strCmp] at h2
      | cons z zs => simp [strCmp]
  | cons x xs ih =>
    intro b c h1 h2
    cases b with
    | nil => simp [strCmp] at h1
    | cons y ys =>
      cases c with
      | nil => simp [strCmp] at h2
      | cons z zs =>
        rw [strCmp_cons] at h1 h2 ⊢
        exact cmpC_lt_le_generic h1 h2 cmpNat_cmpOK.lt_le
          (fun e h => cmpNat_cmpOK.le_lt (le_of_eq e) h)
          cmpNat_cmpOK.zero_trans (ih ys zs)

theorem strCmp_cmpOK : CmpOK strCmp :=
  ⟨strCmp_flip, fun {a b c} => strCmp_le_trans a b c, fun {a b c} => strCmp_lt_le a b c⟩

theorem prIdCmp_cmpOK : CmpOK prIdCmp := by
  refine ⟨?_, ?_, ?_⟩
  · intro a b
    cases a with
    | num m =>
      cases b with
      | num n => exact cmpNat_cmpOK.flip m n
      | alphanum t => simp [prIdCmp]
    | alphanum s2 =>
      cases b with
      | num n => simp [prIdCmp]
      | alphanum t => exact strCmp_flip s2 t
  · intro a b c h1 h2
    cases a <;> cases b <;> cases c <;>
      simp only [prIdCmp] at h1 h2 ⊢ <;>
      first
        | omega
        | exact cmpNat_cmpOK.le_trans h1 h2
        | exact strCmp_cmpOK.le_trans h1 h2
  · intro a b c h1 h2
    cases a <;> cases b <;> cases c <;>
      simp only [prIdCmp] at h1 h2 ⊢ <;>
      first
        | omega
        | exact cmpNat_cmpOK.lt_le h1 h2
        | exact strCmp_cmpOK.lt_le h1 h2

theorem preCmpNE_cons (a b : PRId) (as bs : List PRId) :
    preCmpNE (a :: as) (b :: bs) = cmpC (prIdCmp a b) (preCmpNE as bs) := rfl

theorem preCmpNE_flip : ∀ a b : List PRId, preCmpNE b a = -preCmpNE a b := by
  intro a
  induction a with
  | nil => intro b; cases b <;> simp [preCmpNE]
  | cons x xs ih =>
    intro b
    cases b with
    | nil => simp [preCmpNE]
    | cons y ys =>
      rw [preCmpNE_cons, preCmpNE_cons]
      exact cmpC_flip (prIdCmp_cmpOK.flip x y) (ih ys)

theorem preCmpNE_le_trans : ∀ a b c : List PRId,
    preCmpNE a b ≤ 0 → preCmpNE b c ≤ 0 → preCmpNE a c ≤ 0 := by
  intro a
  induction a with
  | nil =>
    intro b c _ _
    cases c <;> simp [preCmpNE]
  | cons x xs ih =>
    intro b c h1 h2
    cases b with
    | nil => simp [preCmpNE] at h1
    | cons y ys =>
      cases c with
      | nil => simp [preCmpNE] at h2
      | cons z zs =>
        rw [preCmpNE_cons] at h1 h2 ⊢
        exact cmpC_le_trans_generic h1 h2 prIdCmp_cmpOK.lt_le
          (fun e h => prIdCmp_cmpOK.le_lt (le_of_eq e) h)
          prIdCmp_cmpOK.zero_trans (ih ys zs)

theorem preCmpNE_lt_le : ∀ a b c : List PRId,
    preCmpNE a b < 0 → preCmpNE b c ≤ 0 → preCmpNE a c < 0 := by
  intro a
  induction a with
  | nil =>
    intro b c h1 h2
    cases b with
    | nil => simp [preCmpNE] at h1
    | cons y ys =>
      cases c with
      | nil => simp [preCmpNE] at h2
      | cons z zs => simp [preCmpNE]
  | cons x xs ih =>
    intro b c h1 h2
    cases b with
    | nil => simp [preCmpNE] at h1
    | cons y ys =>
      cases c with
      | nil => simp [preCmpNE] at h2
      | cons z zs =>
        rw [preCmpNE_cons] at h1 h2 ⊢
        exact cmpC_lt_le_generic h1 h2 prIdCmp_cmpOK.lt_le
          (fun e h => prIdCmp_cmpOK.le_lt (le_of_eq e) h)
          prIdCmp_cmpOK.zero_trans (ih ys zs)

theorem preCmpNE_cmpOK : CmpOK preCmpNE :=
  ⟨preCmpNE_flip, fun {a b c} => preCmpNE_le_trans a b c,
    fun {a b c} => preCmpNE_lt_le a b c⟩

theorem preCmpFull_cmpOK : CmpOK preCmpFull := by
  refine ⟨?_, ?_, ?_⟩
  · intro a b
    cases a with
    | nil =>
      cases b with
      | nil => simp [preCmpFull]
      | cons y ys => simp [preCmpFull]
    | cons x xs =>
      cases b with
      | nil => simp [preCmpFull]
      | cons y ys => simp only [preCmpFull]; exact preCmpNE_flip _ _
  · intro a b c h1 h2
    cases a <;> cases b <;> cases c <;>
      simp only [preCmpFull] at h1 h2 ⊢ <;>
      first
        | omega
        | exact preCmpNE_cmpOK.le_trans h1 h2
  · intro a b c h1 h2
    cases a <;> cases b <;> cases c <;>
      simp only [preCmpFull] at h1 h2 ⊢ <;>
      first
        | omega
        | exact preCmpNE_cmpOK.lt_le h1 h2

theorem verCmp_cmpOK : CmpOK verCmp := by
  refine ⟨?_, ?_, ?_⟩
  · intro a b
    rw [verCmp, verCmp]
    refine cmpC_flip (cmpNat_cmpOK.flip _ _)
      (cmpC_flip (cmpNat_cmpOK.flip _ _)
        (cmpC_flip (cmpNat_cmpOK.flip _ _) (preCmpFull_cmpOK.flip _ _)))
  · intro a b c h1 h2
    rw [verCmp] at h1 h2 ⊢
    refine cmpC_le_trans_generic h1 h2 cmpNat_cmpOK.lt_le
      (fun e h => cmpNat_cmpOK.le_lt (le_of_eq e) h) cmpNat_cmpOK.zero_trans ?_
    intro g1 g2
    refine cmpC_le_trans_generic g1 g2 cmpNat_cmpOK.lt_le
      (fun e h => cmpNat_cmpOK.le_lt (le_of_eq e) h) cmpNat_cmpOK.zero_trans ?_
    intro k1 k2
    exact cmpC_le_trans_generic k1 k2 cmpNat_cmpOK.lt_le
      (fun e h => cmpNat_cmpOK.le_lt (le_of_eq e) h) cmpNat_cmpOK.zero_trans
      preCmpFull_cmpOK.le_trans
  · intro a b c h1 h2
    rw [verCmp] at h1 h2 ⊢
    refine cmpC_lt_le_generic h1 h2 cmpNat_cmpOK.lt_le
      (fun e h => cmpNat_cmpOK.le_lt (le_of_eq e) h) cmpNat_cmpOK.zero_trans ?_
    intro g1 g2
    refine cmpC_lt_le_generic g1 g2 cmpNat_cmpOK.lt_le
      (fun e h => cmpNat_cmpOK.le_lt (le_of_eq e) h) cmpNat_cmpOK.zero_trans ?_
    intro k1 k2
    exact cmpC_lt_le_generic k1 k2 cmpNat_cmpOK.lt_le
      (fun e h => cmpNat_cmpOK.le_lt (le_of_eq e) h) cmpNat_cmpOK.zero_trans
      preCmpFull_cmpOK.lt_le

/-- Strictly-newer than something at least the floor is still at least
the floor. -/
theorem verGT_GTE_trans {a b c : SemVer} (h1 : verGT a b = true)
    (h2 : verGTE b c = true) : verGTE a c = true := by
  simp only [verGT, verGTE, decide_eq_true_eq] at h1 h2 ⊢
  by_contra hc
  push_neg at hc
  have hba : verCmp b a < 0 := by
    have := verCmp_cmpOK.flip a b
    omega
  have hbc : verCmp b c < 0 := verCmp_cmpOK.lt_le hba (le_of_lt hc)
  omega

/-! ## C1: version-floor correctness of the resolver -/

theorem rule3Cond_some_iff (v : SemVer) (p : PluginInfo) :
    rule3Cond (some v) p = true ↔
      ∃ pv, p.version = some pv ∧ verGTE pv v = true := by
  cases hp : p.version with
  | none => simp [rule3Cond, hp]
  | some pv => simp [rule3Cond, hp]

theorem rule2Cond_some_iff {mm : PluginInfo} {mv : SemVer}
    (hmv : mm.version = some mv) (p : PluginInfo) :
    rule2Cond mm p = true ↔ ∃ pv, p.version = some pv ∧ verGT pv mv = true := by
  cases hp : p.version with
  | none => simp [rule2Cond, hmv, hp]
  | some pv => simp [rule2Cond, hmv, hp]

/-- C1: the claimed floor property fails on the program.  The cache
holds resource-aws-v10.0.0 and resource-aws-v2.0.0, listed in the order
ReadDir reports them, there is no search-path hit, and the requested
minimum is 5.0.0.  A qualifying record exists (10.0.0 is at least
5.0.0), yet resolution returns the directory and path of
resource-aws-v2.0.0, whose version is NOT at least the minimum: because
m = &plugin aliases the reused range variable, the loop's final
selection is always the last scanned record once anything was adopted.
This also contradicts the function's own documentation, which promises
the latest version that is at least the version specified. -/
theorem c1_loop_aliasing_bug :
    getPlugins
        ⟨true, "/h".toList,
          some [.dir "resource-aws-v10.0.0".toList [],
            .dir "resource-aws-v2.0.0".toList []], false⟩ =
      .ok [⟨"aws".toList, "resource".toList, some ⟨10, 0, 0, [], []⟩, 0⟩,
        ⟨"aws".toList, "resource".toList, some ⟨2, 0, 0, [], []⟩, 0⟩] ∧
    verGTE ⟨10, 0, 0, [], []⟩ ⟨5, 0, 0, [], []⟩ = true ∧
    getPluginPath
        ⟨true, "/h".toList,
          some [.dir "resource-aws-v10.0.0".toList [],
            .dir "resource-aws-v2.0.0".toList []], false⟩
        (fun _ => none) "resource".toList "aws".toList
        (some ⟨5, 0, 0, [], []⟩) =
      .ok ("/h/resource-aws-v2.0.0".toList,
        "/h/resource-aws-v2.0.0/pulumi-resource-aws".toList) ∧
    verGTE ⟨2, 0, 0, [], []⟩ ⟨5, 0, 0, [], []⟩ = false := by
  refine ⟨rfl, by decide, ?_, by decide⟩
  rfl

end Plugins
